import Mathlib

/-!
# go-textwrapper: `Wrap`, `getWordWidth`, `runeWidth`, `getSplitPos`

A shallow embedding of `textwrapper.go`.

* A Go string is modelled by the sequence of code points of its (valid UTF-8)
  text; byte offsets and `len` are computed from the UTF-8 length of each code
  point (`runeLen`).
* Go `int` values (the limit, the widths) are `Int`. The sums of widths and
  the capacity `len(s)/limit * (limit+1)` are bounded in absolute value by
  twice the byte length of the input, so 64-bit wrap-around does not change a
  result and is not modelled.
* The East Asian Width table of `golang.org/x/text/width` is not part of the
  repository: the lookup `width.LookupRune(r).Kind()` is a parameter `kind`
  of every definition that needs it.
* The split loop of `Wrap` need not terminate, so `Wrap` takes a `fuel`: the
  number of iterations each run of the split loop may make.
-/

namespace TextWrapper

/-- A Go string, as the code points of its text. -/
abbrev GoString := List Char

/-- The `Kind` values of `golang.org/x/text/width`. -/
inductive Kind
  | Neutral
  | EastAsianAmbiguous
  | EastAsianWide
  | EastAsianNarrow
  | EastAsianFullwidth
  | EastAsianHalfwidth
  deriving DecidableEq

/-- How a call ends. -/
inductive Outcome (α : Type)
  /-- the call returns a value -/
  | ok (val : α)
  /-- a run-time panic: division by zero, `Grow` with a negative count, slice
  bounds out of range -/
  | panic
  /-- a slice offset that falls inside a code point: the slices are not text -/
  | splitsRune
  /-- the split loop was still running when the fuel ran out -/
  | outOfFuel
  deriving DecidableEq

/-- Sequencing: the rest of the call runs when the first part returned. -/
def Outcome.bind {α β : Type} : Outcome α → (α → Outcome β) → Outcome β
  | .ok val, f => f val
  | .panic, _ => .panic
  | .splitsRune, _ => .splitsRune
  | .outOfFuel, _ => .outOfFuel

/-- Number of bytes of the UTF-8 encoding of a code point (`utf8.RuneLen`). -/
def runeLen (r : Char) : Nat :=
  if r.toNat < 0x80 then 1
  else if r.toNat < 0x800 then 2
  else if r.toNat < 0x10000 then 3
  else 4

/-- The Go builtin `len(s)`: the number of bytes of the string. -/
def byteLen (s : GoString) : Nat := (s.map runeLen).sum

/-- The slices `word[:pos]` and `word[pos:]` at byte offset `pos`. -/
def sliceAt : GoString → Nat → Outcome (GoString × GoString)
  | word, 0 => .ok ([], word)
  | [], _ + 1 => .panic
  | r :: rest, pos + 1 =>
    if runeLen r ≤ pos + 1 then
      (sliceAt rest (pos + 1 - runeLen r)).bind fun cut => .ok (r :: cut.1, cut.2)
    else .splitsRune

/-- The Go function `unicode.IsSpace`. -/
def isSpace (r : Char) : Bool :=
  let c := r.toNat
  (0x09 ≤ c ∧ c ≤ 0x0D) ∨ c = 0x20 ∨ c = 0x85 ∨ c = 0xA0 ∨ c = 0x1680 ∨
    (0x2000 ≤ c ∧ c ≤ 0x200A) ∨ c = 0x2028 ∨ c = 0x2029 ∨ c = 0x202F ∨
    c = 0x205F ∨ c = 0x3000

/-- The scan of `strings.Fields`: `cur` is the field being read (empty when the
scan is between fields). -/
def fieldsLoop : GoString → GoString → List GoString
  | [], cur => if cur = [] then [] else [cur]
  | r :: rest, cur =>
    if isSpace r then
      if cur = [] then fieldsLoop rest [] else cur :: fieldsLoop rest []
    else fieldsLoop rest (cur ++ [r])

/-- The Go function `strings.Fields`: the maximal runs of code points that are
not white space. -/
def Fields (s : GoString) : List GoString := fieldsLoop s []

/-- The local variables of `Wrap` that the loop over the words updates. -/
structure LoopState where
  /-- the completed lines -/
  lines : List GoString
  /-- the content of the `strings.Builder` -/
  lineBuilder : GoString
  /-- the width of the line being built -/
  lineWidth : Int
  deriving DecidableEq

section Code

variable (kind : Char → Kind)

/-- The function `runeWidth` of `textwrapper.go`. -/
def runeWidth (r : Char) : Int :=
  if kind r = Kind.EastAsianFullwidth ∨ kind r = Kind.EastAsianWide then 2 else 1

/-- The function `getWordWidth` of `textwrapper.go`. -/
def getWordWidth (word : GoString) : Int :=
  word.foldl (fun width r => width + runeWidth kind r) 0

/-- The loop of `getSplitPos`: `i` is the byte offset of the next code point,
`width` the width summed so far; `some i` is the early `return i`. -/
def getSplitPosLoop (limit : Int) : GoString → Nat → Int → Option Nat
  | [], _, _ => none
  | r :: rest, i, width =>
    if width + runeWidth kind r > limit then some i
    else getSplitPosLoop limit rest (i + runeLen r) (width + runeWidth kind r)

/-- The function `getSplitPos` of `textwrapper.go`. -/
def getSplitPos (word : GoString) (limit : Int) : Nat :=
  match getSplitPosLoop kind limit word 0 0 with
  | some i => i
  | none => word.length

/-- The loop `for wordWidth > limit` of `Wrap`: returns `lines` and `word` as
they are when the loop ends. -/
def splitLoop (limit : Int) : Nat → List GoString → GoString →
    Outcome (List GoString × GoString)
  | 0, lines, word =>
    if getWordWidth kind word > limit then .outOfFuel else .ok (lines, word)
  | fuel + 1, lines, word =>
    if getWordWidth kind word > limit then
      (sliceAt word (getSplitPos kind word limit)).bind fun cut =>
        splitLoop limit fuel (lines ++ [cut.1]) cut.2
    else .ok (lines, word)

/-- The body of the loop `for _, word := range words` of `Wrap`: the state
after one word. -/
def wrapStep (limit : Int) (fuel : Nat) (st : LoopState) (word : GoString) :
    Outcome LoopState :=
  let wordWidth := getWordWidth kind word
  -- if lineWidth+wordWidth > limit { ... }
  let afterIf : Outcome (LoopState × GoString × Int) :=
    if st.lineWidth + wordWidth > limit then
      let st1 : LoopState :=
        if st.lineWidth > 0 then
          { lines := st.lines ++ [st.lineBuilder], lineBuilder := [], lineWidth := 0 }
        else st
      (splitLoop kind limit fuel st1.lines word).bind fun r =>
        .ok ({ st1 with lines := r.1 }, r.2, getWordWidth kind r.2)
    else .ok (st, word, wordWidth)
  afterIf.bind fun (st, word, wordWidth) =>
    -- if lineWidth > 0 { lineBuilder.WriteRune(' '); lineWidth++ }
    let st2 : LoopState :=
      if st.lineWidth > 0 then
        { st with lineBuilder := st.lineBuilder ++ [' '], lineWidth := st.lineWidth + 1 }
      else st
    .ok { st2 with lineBuilder := st2.lineBuilder ++ word,
                   lineWidth := st2.lineWidth + wordWidth }

/-- The loop `for _, word := range words` of `Wrap` and the statements after
it. -/
def wrapLoop (limit : Int) (fuel : Nat) : List GoString → LoopState → Outcome (List GoString)
  | [], st =>
    if byteLen st.lineBuilder > 0 then .ok (st.lines ++ [st.lineBuilder]) else .ok st.lines
  | word :: words, st =>
    (wrapStep kind limit fuel st word).bind fun st => wrapLoop limit fuel words st

/-- The function `Wrap` of `textwrapper.go`. -/
def Wrap (fuel : Nat) (s : GoString) (limit : Int) : Outcome (List GoString) :=
  if s = [] then .ok []
  else if limit = 0 then .panic
  else
    let estimatedCapacity := Int.tdiv (byteLen s) limit
    if estimatedCapacity * (limit + 1) < 0 then .panic
    else wrapLoop kind limit fuel (Fields s) { lines := [], lineBuilder := [], lineWidth := 0 }

end Code

/-- An excerpt of the Unicode East Asian Width table, for concrete inputs:
the blocks of wide and fullwidth code points the examples use, ASCII as
narrow, everything else neutral. -/
def eastAsianKind (r : Char) : Kind :=
  let c := r.toNat
  if c = 0x3000 ∨ (0xFF01 ≤ c ∧ c ≤ 0xFF60) ∨ (0xFFE0 ≤ c ∧ c ≤ 0xFFE6) then
    Kind.EastAsianFullwidth
  else if (0x1100 ≤ c ∧ c ≤ 0x115F) ∨ (0x3041 ≤ c ∧ c ≤ 0x3096) ∨
      (0x30A1 ≤ c ∧ c ≤ 0x30FA) ∨ (0x3400 ≤ c ∧ c ≤ 0x4DBF) ∨ (0x4E00 ≤ c ∧ c ≤ 0x9FFF) ∨
      (0xAC00 ≤ c ∧ c ≤ 0xD7A3) ∨ (0xF900 ≤ c ∧ c ≤ 0xFAFF) then
    Kind.EastAsianWide
  else if 0x20 ≤ c ∧ c ≤ 0x7E then Kind.EastAsianNarrow
  else Kind.Neutral

/-- The input of the test "Simple case" of `textwrapper_test.go`. -/
def sampleText : GoString :=
  "This is a sample text that will be wrapped based on the given limit.".toList

/-! ## Definitions used to state and prove the properties -/

/-- The display width of a line: the `runeWidth` of its code points, a joining
space counting 1 (as `lineWidth++` counts it). -/
def displayWidth (kind : Char → Kind) (line : GoString) : Int :=
  (line.map (fun r => if r = ' ' then 1 else runeWidth kind r)).sum

/-- The longest prefix of `word` whose width, added to `width`, is at most
`limit`. -/
def fitPrefix (kind : Char → Kind) (limit : Int) : Int → GoString → GoString
  | _, [] => []
  | width, r :: rest =>
    if width + runeWidth kind r > limit then []
    else r :: fitPrefix kind limit (width + runeWidth kind r) rest

/-- The fragments the split loop cuts off `word` in at most `fuel` iterations,
and what is left of the word. -/
def splitPure (kind : Char → Kind) (limit : Int) : Nat → GoString → List GoString × GoString
  | 0, word => ([], word)
  | fuel + 1, word =>
    if getWordWidth kind word > limit then
      let pre := fitPrefix kind limit 0 word
      let r := splitPure kind limit fuel (word.drop pre.length)
      (pre :: r.1, r.2)
    else ([], word)

/-- A line as `Wrap` builds it: the words joined by single spaces. -/
def render (group : List GoString) : GoString := [' '].intercalate group

/-- The width `Wrap` counts for a line made of the words `group`: the widths of
the words and one for each joining space. -/
def groupWidth (kind : Char → Kind) (group : List GoString) : Int :=
  (group.map (getWordWidth kind)).sum + ((group.length - 1 : Nat) : Int)

/-- The packing of `Wrap` on lists of words: `cur` is the words of the line
being built, the result the words of each line. -/
def layout (kind : Char → Kind) (limit : Int) (fuel : Nat) :
    List GoString → List GoString → List (List GoString)
  | [], cur => if cur = [] then [] else [cur]
  | w :: ws, cur =>
    if groupWidth kind cur + getWordWidth kind w > limit then
      (if cur = [] then [] else [cur]) ++
        (splitPure kind limit fuel w).1.map (fun f => [f]) ++
        layout kind limit fuel ws [(splitPure kind limit fuel w).2]
    else layout kind limit fuel ws (cur ++ [w])

/-- Consecutive pieces of a greedy split: the earlier piece cannot take the
first code point of the later one. -/
def FragNext (kind : Char → Kind) (limit : Int) (p q : GoString) : Prop :=
  ∀ r ∈ q.head?, limit < getWordWidth kind p + runeWidth kind r

/-- The pieces the split loop makes of a word: its fragments, then what is left
of the word. -/
def pieces (kind : Char → Kind) (limit : Int) (fuel : Nat) (w : GoString) : List GoString :=
  (splitPure kind limit fuel w).1 ++ [(splitPure kind limit fuel w).2]

/-- A word of `strings.Fields`: not empty, no white space in it. -/
def Solid (w : GoString) : Prop := w ≠ [] ∧ ∀ r ∈ w, isSpace r = false

/-! ## Widths -/

section Widths

variable (kind : Char → Kind)

theorem runeWidth_pos (r : Char) : 1 ≤ runeWidth kind r := by
  unfold runeWidth; split <;> omega

theorem runeWidth_le_two (r : Char) : runeWidth kind r ≤ 2 := by
  unfold runeWidth; split <;> omega

theorem foldl_width (w : GoString) (a : Int) :
    w.foldl (fun width r => width + runeWidth kind r) a =
      a + w.foldl (fun width r => width + runeWidth kind r) 0 := by
  induction w generalizing a with
  | nil => simp
  | cons r rest ih =>
    simp only [List.foldl_cons]
    rw [ih (a + runeWidth kind r), ih (0 + runeWidth kind r)]
    omega

@[simp] theorem getWordWidth_nil : getWordWidth kind [] = 0 := rfl

@[simp] theorem getWordWidth_cons (r : Char) (w : GoString) :
    getWordWidth kind (r :: w) = runeWidth kind r + getWordWidth kind w := by
  unfold getWordWidth
  simp only [List.foldl_cons]
  rw [foldl_width]
  omega

@[simp] theorem getWordWidth_append (u v : GoString) :
    getWordWidth kind (u ++ v) = getWordWidth kind u + getWordWidth kind v := by
  induction u with
  | nil => simp
  | cons r rest ih => simp [ih]; omega

theorem getWordWidth_nonneg (w : GoString) : 0 ≤ getWordWidth kind w := by
  induction w with
  | nil => simp
  | cons r rest ih => have := runeWidth_pos kind r; simp; omega

theorem length_le_getWordWidth (w : GoString) : (w.length : Int) ≤ getWordWidth kind w := by
  induction w with
  | nil => simp
  | cons r rest ih => have := runeWidth_pos kind r; simp; omega

theorem getWordWidth_pos {w : GoString} (h : w ≠ []) : 1 ≤ getWordWidth kind w := by
  cases w with
  | nil => exact absurd rfl h
  | cons r rest =>
    have := runeWidth_pos kind r
    have := getWordWidth_nonneg kind rest
    simp; omega

theorem runeWidth_le_getWordWidth {w : GoString} {r : Char} (h : r ∈ w) :
    runeWidth kind r ≤ getWordWidth kind w := by
  induction w with
  | nil => simp at h
  | cons a rest ih =>
    have := runeWidth_pos kind a
    have := getWordWidth_nonneg kind rest
    rcases List.mem_cons.1 h with rfl | h
    · simp; omega
    · have := ih h; simp; omega

@[simp] theorem displayWidth_nil : displayWidth kind [] = 0 := rfl

@[simp] theorem displayWidth_cons (r : Char) (w : GoString) :
    displayWidth kind (r :: w) =
      (if r = ' ' then 1 else runeWidth kind r) + displayWidth kind w := by
  simp [displayWidth]

@[simp] theorem displayWidth_append (u v : GoString) :
    displayWidth kind (u ++ v) = displayWidth kind u + displayWidth kind v := by
  simp [displayWidth]

theorem displayWidth_nonneg (w : GoString) : 0 ≤ displayWidth kind w := by
  induction w with
  | nil => simp
  | cons r rest ih =>
    have := runeWidth_pos kind r
    simp only [displayWidth_cons]; split <;> omega

theorem displayWidth_pos {w : GoString} (h : w ≠ []) : 1 ≤ displayWidth kind w := by
  cases w with
  | nil => exact absurd rfl h
  | cons r rest =>
    have := runeWidth_pos kind r
    have := displayWidth_nonneg kind rest
    simp only [displayWidth_cons]; split <;> omega

theorem displayWidth_eq_getWordWidth {w : GoString} (h : ∀ r ∈ w, r ≠ ' ') :
    displayWidth kind w = getWordWidth kind w := by
  induction w with
  | nil => simp
  | cons r rest ih =>
    have h1 : r ≠ ' ' := h r (List.mem_cons_self _ _)
    have h2 := ih (fun x hx => h x (List.mem_cons_of_mem _ hx))
    simp [h1, h2]

end Widths

/-! ## The splitter and the split loop -/

section Split

variable (kind : Char → Kind)

theorem runeLen_pos (r : Char) : 1 ≤ runeLen r := by
  unfold runeLen; split_ifs <;> omega

@[simp] theorem byteLen_nil : byteLen [] = 0 := rfl

@[simp] theorem byteLen_cons (r : Char) (s : GoString) :
    byteLen (r :: s) = runeLen r + byteLen s := by
  simp [byteLen]

@[simp] theorem byteLen_append (u v : GoString) : byteLen (u ++ v) = byteLen u + byteLen v := by
  simp [byteLen]

theorem byteLen_pos {s : GoString} (h : s ≠ []) : 0 < byteLen s := by
  cases s with
  | nil => exact absurd rfl h
  | cons r rest => have := runeLen_pos r; simp; omega

theorem sliceAt_zero (word : GoString) : sliceAt word 0 = .ok ([], word) := by
  cases word <;> rfl

theorem sliceAt_byteLen (pre post : GoString) :
    sliceAt (pre ++ post) (byteLen pre) = .ok (pre, post) := by
  induction pre with
  | nil => simpa using sliceAt_zero post
  | cons r rest ih =>
    have hr := runeLen_pos r
    obtain ⟨n, hn⟩ : ∃ n, byteLen (r :: rest) = n + 1 :=
      ⟨runeLen r + byteLen rest - 1, by simp; omega⟩
    have hle : runeLen r ≤ n + 1 := by simp at hn; omega
    have hsub : n + 1 - runeLen r = byteLen rest := by simp at hn; omega
    rw [hn, List.cons_append, sliceAt, if_pos hle, hsub, ih]
    rfl

theorem fitPrefix_append_drop (limit width : Int) (word : GoString) :
    fitPrefix kind limit width word ++ word.drop (fitPrefix kind limit width word).length =
      word := by
  induction word generalizing width with
  | nil => simp [fitPrefix]
  | cons r rest ih =>
    unfold fitPrefix
    split
    · simp
    · simpa using ih (width + runeWidth kind r)

theorem getSplitPosLoop_some (limit : Int) (word : GoString) (i : Nat) (width : Int)
    (hw : width ≤ limit) (h : width + getWordWidth kind word > limit) :
    getSplitPosLoop kind limit word i width =
      some (i + byteLen (fitPrefix kind limit width word)) := by
  induction word generalizing i width with
  | nil => simp at h; omega
  | cons r rest ih =>
    unfold getSplitPosLoop fitPrefix
    split
    · simp
    · rw [ih (i + runeLen r) (width + runeWidth kind r) (by omega) (by simp at h; omega)]
      simp; omega

theorem getSplitPosLoop_none (limit : Int) (word : GoString) (i : Nat) (width : Int)
    (h : width + getWordWidth kind word ≤ limit) :
    getSplitPosLoop kind limit word i width = none := by
  induction word generalizing i width with
  | nil => rfl
  | cons r rest ih =>
    have := getWordWidth_nonneg kind rest
    unfold getSplitPosLoop
    rw [if_neg (by simp at h; omega)]
    exact ih _ _ (by simp at h; omega)

theorem getSplitPos_of_gt (limit : Int) (word : GoString) (h0 : 0 ≤ limit)
    (h : getWordWidth kind word > limit) :
    getSplitPos kind word limit = byteLen (fitPrefix kind limit 0 word) := by
  unfold getSplitPos
  rw [getSplitPosLoop_some kind limit word 0 0 h0 (by omega)]
  simp

theorem sliceAt_getSplitPos (limit : Int) (word : GoString) (h0 : 0 ≤ limit)
    (h : getWordWidth kind word > limit) :
    sliceAt word (getSplitPos kind word limit) =
      .ok (fitPrefix kind limit 0 word, word.drop (fitPrefix kind limit 0 word).length) := by
  rw [getSplitPos_of_gt kind limit word h0 h]
  have key := sliceAt_byteLen (fitPrefix kind limit 0 word)
    (word.drop (fitPrefix kind limit 0 word).length)
  rwa [fitPrefix_append_drop] at key

theorem splitLoop_eq (limit : Int) (h0 : 0 ≤ limit) (fuel : Nat) (lines : List GoString)
    (word : GoString) :
    splitLoop kind limit fuel lines word =
      if getWordWidth kind (splitPure kind limit fuel word).2 > limit then .outOfFuel
      else .ok (lines ++ (splitPure kind limit fuel word).1, (splitPure kind limit fuel word).2) := by
  induction fuel generalizing lines word with
  | zero => simp [splitLoop, splitPure]
  | succ fuel ih =>
    unfold splitLoop splitPure
    by_cases h : getWordWidth kind word > limit
    · rw [if_pos h, if_pos h, sliceAt_getSplitPos kind limit word h0 h]
      simp only [Outcome.bind]
      rw [ih]
      simp
    · rw [if_neg h, if_neg h]
      simp [h]

theorem fitPrefix_width (limit width : Int) (word : GoString) (hw : width ≤ limit) :
    width + getWordWidth kind (fitPrefix kind limit width word) ≤ limit := by
  induction word generalizing width with
  | nil => simpa [fitPrefix] using hw
  | cons r rest ih =>
    unfold fitPrefix
    split
    · simpa using hw
    · have := ih (width + runeWidth kind r) (by omega)
      simp; omega

theorem fitPrefix_maximal (limit width : Int) (word : GoString) (hw : width ≤ limit)
    (h : width + getWordWidth kind word > limit) :
    ∃ r rest, word.drop (fitPrefix kind limit width word).length = r :: rest ∧
      width + getWordWidth kind (fitPrefix kind limit width word) + runeWidth kind r > limit := by
  induction word generalizing width with
  | nil => simp at h; omega
  | cons r rest ih =>
    unfold fitPrefix
    split
    · exact ⟨r, rest, by simp, by simp; omega⟩
    · obtain ⟨r', rest', h1, h2⟩ := ih (width + runeWidth kind r) (by omega) (by simp at h; omega)
      exact ⟨r', rest', by simpa using h1, by simp; omega⟩

theorem fitPrefix_ne_nil (limit : Int) (r : Char) (rest : GoString)
    (h : runeWidth kind r ≤ limit) : fitPrefix kind limit 0 (r :: rest) ≠ [] := by
  unfold fitPrefix
  rw [if_neg (by omega)]
  simp

theorem splitPure_of_le (limit : Int) (fuel : Nat) (word : GoString)
    (h : getWordWidth kind word ≤ limit) : splitPure kind limit fuel word = ([], word) := by
  cases fuel with
  | zero => rfl
  | succ fuel => unfold splitPure; rw [if_neg (by omega)]

theorem splitPure_flatten (limit : Int) (fuel : Nat) (word : GoString) :
    (splitPure kind limit fuel word).1.flatten ++ (splitPure kind limit fuel word).2 = word := by
  induction fuel generalizing word with
  | zero => simp [splitPure]
  | succ fuel ih =>
    unfold splitPure
    split
    · simp only [List.flatten_cons, List.append_assoc]
      rw [ih, fitPrefix_append_drop]
    · simp

/-- Enough fuel for a word whose code points each fit: the split loop ends. -/
theorem splitPure_fits (limit : Int) (h0 : 0 ≤ limit) (fuel : Nat) (word : GoString)
    (hr : ∀ r ∈ word, runeWidth kind r ≤ limit) (hf : word.length ≤ fuel) :
    getWordWidth kind (splitPure kind limit fuel word).2 ≤ limit := by
  induction fuel generalizing word with
  | zero =>
    have : word = [] := List.length_eq_zero.1 (by omega)
    subst this
    simpa [splitPure] using h0
  | succ fuel ih =>
    unfold splitPure
    split
    · rename_i hgt
      cases word with
      | nil => simp at hgt; omega
      | cons r rest =>
        have hne := fitPrefix_ne_nil kind limit r rest (hr r (List.mem_cons_self _ _))
        have hlen : 0 < (fitPrefix kind limit 0 (r :: rest)).length :=
          List.length_pos.2 hne
        apply ih
        · intro x hx
          exact hr x (List.mem_of_mem_drop hx)
        · simp only [List.length_drop]
          simp only [List.length_cons] at hf ⊢
          omega
    · rename_i hle
      simpa using hle

theorem splitPure_last_ne_nil (limit : Int) (h0 : 0 ≤ limit) (fuel : Nat) (word : GoString)
    (hne : word ≠ []) : (splitPure kind limit fuel word).2 ≠ [] := by
  induction fuel generalizing word with
  | zero => simpa [splitPure] using hne
  | succ fuel ih =>
    unfold splitPure
    split
    · rename_i hgt
      obtain ⟨r, rest, h1, _⟩ := fitPrefix_maximal kind limit 0 word h0 (by omega)
      apply ih
      rw [h1]; simp
    · simpa using hne

theorem splitPure_frag_width (limit : Int) (h0 : 0 ≤ limit) (fuel : Nat) (word : GoString) :
    ∀ f ∈ (splitPure kind limit fuel word).1, getWordWidth kind f ≤ limit := by
  induction fuel generalizing word with
  | zero => simp [splitPure]
  | succ fuel ih =>
    unfold splitPure
    split
    · intro f hf
      rcases List.mem_cons.1 hf with rfl | hf
      · have := fitPrefix_width kind limit 0 word h0
        omega
      · exact ih _ f hf
    · simp

theorem splitPure_stuck (limit : Int) (fuel : Nat) (word : GoString)
    (hgt : getWordWidth kind word > limit) (hnil : fitPrefix kind limit 0 word = []) :
    (splitPure kind limit fuel word).2 = word := by
  induction fuel with
  | zero => rfl
  | succ fuel ih =>
    unfold splitPure
    rw [if_pos hgt]
    simpa [hnil] using ih

theorem splitPure_frag_ne_nil (limit : Int) (fuel : Nat) (word : GoString)
    (hgood : getWordWidth kind (splitPure kind limit fuel word).2 ≤ limit) :
    ∀ f ∈ (splitPure kind limit fuel word).1, f ≠ [] := by
  induction fuel generalizing word with
  | zero => simp [splitPure]
  | succ fuel ih =>
    by_cases hgt : getWordWidth kind word > limit
    · by_cases hnil : fitPrefix kind limit 0 word = []
      · have := splitPure_stuck kind limit (fuel + 1) word hgt hnil
        rw [this] at hgood
        omega
      · unfold splitPure at hgood ⊢
        rw [if_pos hgt] at hgood ⊢
        intro f hf
        rcases List.mem_cons.1 hf with rfl | hf
        · exact hnil
        · exact ih _ hgood f hf
    · unfold splitPure
      rw [if_neg hgt]
      simp

end Split

/-! ## The packing loop computes `layout` -/

section Packing

variable (kind : Char → Kind)

theorem splitPure_head (limit : Int) (h0 : 0 ≤ limit) (fuel : Nat) (word : GoString)
    (hne : word ≠ [])
    (hgood : getWordWidth kind (splitPure kind limit fuel word).2 ≤ limit) :
    ∀ y ∈ ((splitPure kind limit fuel word).1 ++ [(splitPure kind limit fuel word).2]).head?,
      y.head? = word.head? := by
  have hflat := splitPure_flatten kind limit fuel word
  have hfrag := splitPure_frag_ne_nil kind limit fuel word hgood
  have hlast := splitPure_last_ne_nil kind limit h0 fuel word hne
  generalize (splitPure kind limit fuel word).1 = frags at hflat hfrag
  generalize (splitPure kind limit fuel word).2 = last at hflat hlast
  cases frags with
  | nil =>
    intro y hy
    simp at hy hflat
    rw [← hy, hflat]
  | cons f fs =>
    intro y hy
    simp at hy
    subst hy
    have hf : f ≠ [] := hfrag f (List.mem_cons_self _ _)
    rw [← hflat]
    cases f with
    | nil => exact absurd rfl hf
    | cons c cs => simp

theorem splitPure_chain (limit : Int) (h0 : 0 ≤ limit) (fuel : Nat) (word : GoString)
    (hne : word ≠ [])
    (hgood : getWordWidth kind (splitPure kind limit fuel word).2 ≤ limit) :
    List.Chain' (FragNext kind limit)
      ((splitPure kind limit fuel word).1 ++ [(splitPure kind limit fuel word).2]) := by
  induction fuel generalizing word with
  | zero => simp [splitPure]
  | succ fuel ih =>
    by_cases hgt : getWordWidth kind word > limit
    · obtain ⟨r, rest, h1, h2⟩ := fitPrefix_maximal kind limit 0 word h0 (by omega)
      unfold splitPure at hgood ⊢
      rw [if_pos hgt] at hgood ⊢
      simp only [List.cons_append]
      have hne' : word.drop (fitPrefix kind limit 0 word).length ≠ [] := by rw [h1]; simp
      rw [List.chain'_cons']
      refine ⟨?_, ih _ hne' hgood⟩
      intro y hy
      have := splitPure_head kind limit h0 fuel _ hne' hgood y hy
      intro c hc
      rw [this, h1] at hc
      simp at hc
      subst hc
      omega
    · unfold splitPure
      rw [if_neg hgt]
      simp

theorem render_nil : render [] = [] := rfl

theorem render_singleton (w : GoString) : render [w] = w := by
  simp [render, List.intercalate]

theorem render_cons_cons (a b : GoString) (l : List GoString) :
    render (a :: b :: l) = a ++ ' ' :: render (b :: l) := by
  simp [render, List.intercalate]

theorem render_append_singleton (cur : List GoString) (w : GoString) (h : cur ≠ []) :
    render (cur ++ [w]) = render cur ++ [' '] ++ w := by
  induction cur with
  | nil => exact absurd rfl h
  | cons a rest ih =>
    cases rest with
    | nil => simp [render_cons_cons, render_singleton]
    | cons b l =>
      have := ih (by simp)
      simp only [List.cons_append] at this ⊢
      rw [render_cons_cons, render_cons_cons, this]
      simp

theorem render_ne_nil (cur : List GoString) (h : cur ≠ []) (hp : ∀ p ∈ cur, p ≠ []) :
    render cur ≠ [] := by
  cases cur with
  | nil => exact absurd rfl h
  | cons a rest =>
    have ha : a ≠ [] := hp a (List.mem_cons_self _ _)
    cases rest with
    | nil => simpa [render_singleton] using ha
    | cons b l => rw [render_cons_cons]; simp [ha]

@[simp] theorem groupWidth_nil : groupWidth kind [] = 0 := rfl

@[simp] theorem groupWidth_singleton (w : GoString) :
    groupWidth kind [w] = getWordWidth kind w := by
  simp [groupWidth]

theorem groupWidth_append_singleton (cur : List GoString) (w : GoString) (h : cur ≠ []) :
    groupWidth kind (cur ++ [w]) = groupWidth kind cur + 1 + getWordWidth kind w := by
  have : 0 < cur.length := List.length_pos.2 h
  simp only [groupWidth, List.map_append, List.sum_append, List.length_append,
    List.map_cons, List.map_nil, List.sum_cons, List.sum_nil, List.length_cons, List.length_nil]
  omega

theorem groupWidth_nonneg (cur : List GoString) : 0 ≤ groupWidth kind cur := by
  have : 0 ≤ (cur.map (getWordWidth kind)).sum := by
    apply List.sum_nonneg
    intro x hx
    obtain ⟨w, _, rfl⟩ := List.mem_map.1 hx
    exact getWordWidth_nonneg kind w
  unfold groupWidth
  omega

theorem groupWidth_pos (cur : List GoString) (h : cur ≠ []) (hp : ∀ p ∈ cur, p ≠ []) :
    0 < groupWidth kind cur := by
  cases cur with
  | nil => exact absurd rfl h
  | cons a rest =>
    have ha := getWordWidth_pos kind (hp a (List.mem_cons_self _ _))
    have : 0 ≤ (rest.map (getWordWidth kind)).sum := by
      apply List.sum_nonneg
      intro x hx
      obtain ⟨w, _, rfl⟩ := List.mem_map.1 hx
      exact getWordWidth_nonneg kind w
    simp only [groupWidth, List.map_cons, List.sum_cons]
    omega

theorem wrapStep_flush (limit : Int) (h0 : 0 ≤ limit) (fuel : Nat) (lines cur : List GoString)
    (w : GoString) (hp : ∀ p ∈ cur, p ≠ [])
    (h : groupWidth kind cur + getWordWidth kind w > limit) :
    wrapStep kind limit fuel ⟨lines, render cur, groupWidth kind cur⟩ w =
      if getWordWidth kind (splitPure kind limit fuel w).2 > limit then .outOfFuel
      else .ok ⟨lines ++ (if cur = [] then [] else [render cur]) ++
                  (splitPure kind limit fuel w).1,
                (splitPure kind limit fuel w).2,
                getWordWidth kind (splitPure kind limit fuel w).2⟩ := by
  unfold wrapStep
  simp only [if_pos h]
  by_cases hc : cur = []
  · subst hc
    simp only [groupWidth_nil, lt_self_iff_false, if_false, render_nil, if_true]
    rw [splitLoop_eq kind limit h0]
    split <;> simp [Outcome.bind]
  · have hpos := groupWidth_pos kind cur hc hp
    simp only [gt_iff_lt, hpos, if_true, hc, if_false]
    rw [splitLoop_eq kind limit h0]
    split <;> simp [Outcome.bind]

theorem wrapStep_append (limit : Int) (fuel : Nat) (lines cur : List GoString)
    (w : GoString) (hp : ∀ p ∈ cur, p ≠ [])
    (h : ¬ groupWidth kind cur + getWordWidth kind w > limit) :
    wrapStep kind limit fuel ⟨lines, render cur, groupWidth kind cur⟩ w =
      .ok ⟨lines, render (cur ++ [w]), groupWidth kind (cur ++ [w])⟩ := by
  unfold wrapStep
  simp only [if_neg h]
  by_cases hc : cur = []
  · subst hc
    simp [Outcome.bind, render_nil, render_singleton]
  · have hpos := groupWidth_pos kind cur hc hp
    simp [Outcome.bind, hpos, render_append_singleton _ _ hc,
      groupWidth_append_singleton kind _ _ hc]

theorem wrapLoop_ok (limit : Int) (h0 : 0 ≤ limit) (fuel : Nat) (words : List GoString)
    (hw : ∀ w ∈ words, w ≠ [])
    (hgood : ∀ w ∈ words, getWordWidth kind (splitPure kind limit fuel w).2 ≤ limit)
    (lines cur : List GoString) (hp : ∀ p ∈ cur, p ≠ []) :
    wrapLoop kind limit fuel words ⟨lines, render cur, groupWidth kind cur⟩ =
      .ok (lines ++ (layout kind limit fuel words cur).map render) := by
  induction words generalizing lines cur with
  | nil =>
    unfold wrapLoop layout
    by_cases hc : cur = []
    · subst hc; simp [render_nil]
    · have := byteLen_pos (render_ne_nil cur hc hp)
      simp [this, hc]
  | cons w ws ih =>
    have hw1 : w ≠ [] := hw w (List.mem_cons_self _ _)
    have hg1 := hgood w (List.mem_cons_self _ _)
    have hw2 : ∀ x ∈ ws, x ≠ [] := fun x hx => hw x (List.mem_cons_of_mem _ hx)
    have hg2 : ∀ x ∈ ws, getWordWidth kind (splitPure kind limit fuel x).2 ≤ limit :=
      fun x hx => hgood x (List.mem_cons_of_mem _ hx)
    unfold wrapLoop layout
    by_cases h : groupWidth kind cur + getWordWidth kind w > limit
    · rw [wrapStep_flush kind limit h0 fuel lines cur w hp h, if_neg (by omega), if_pos h]
      simp only [Outcome.bind]
      have hlast := splitPure_last_ne_nil kind limit h0 fuel w hw1
      have := ih hw2 hg2
        (lines ++ (if cur = [] then [] else [render cur]) ++ (splitPure kind limit fuel w).1)
        [(splitPure kind limit fuel w).2] (by simpa using hlast)
      rw [render_singleton, groupWidth_singleton] at this
      rw [this]
      by_cases hc : cur = []
      · simp [hc, Function.comp_def, render_singleton]
      · simp [hc, Function.comp_def, render_singleton]
    · rw [wrapStep_append kind limit fuel lines cur w hp h, if_neg h]
      simp only [Outcome.bind]
      apply ih hw2 hg2
      intro p hp'
      rcases List.mem_append.1 hp' with hp' | hp'
      · exact hp p hp'
      · simp at hp'; subst hp'; exact hw1

theorem wrapLoop_outOfFuel (limit : Int) (h0 : 0 ≤ limit) (fuel : Nat) (words : List GoString)
    (hw : ∀ w ∈ words, w ≠ [])
    (hbad : ∃ w ∈ words, ¬ getWordWidth kind (splitPure kind limit fuel w).2 ≤ limit)
    (lines cur : List GoString) (hp : ∀ p ∈ cur, p ≠ []) :
    wrapLoop kind limit fuel words ⟨lines, render cur, groupWidth kind cur⟩ = .outOfFuel := by
  induction words generalizing lines cur with
  | nil => simp at hbad
  | cons w ws ih =>
    have hw1 : w ≠ [] := hw w (List.mem_cons_self _ _)
    have hw2 : ∀ x ∈ ws, x ≠ [] := fun x hx => hw x (List.mem_cons_of_mem _ hx)
    unfold wrapLoop
    by_cases hg1 : getWordWidth kind (splitPure kind limit fuel w).2 ≤ limit
    · have hbad2 : ∃ x ∈ ws, ¬ getWordWidth kind (splitPure kind limit fuel x).2 ≤ limit := by
        obtain ⟨x, hx, hx'⟩ := hbad
        rcases List.mem_cons.1 hx with rfl | hx
        · exact absurd hg1 hx'
        · exact ⟨x, hx, hx'⟩
      by_cases h : groupWidth kind cur + getWordWidth kind w > limit
      · rw [wrapStep_flush kind limit h0 fuel lines cur w hp h, if_neg (by omega)]
        simp only [Outcome.bind]
        have hlast := splitPure_last_ne_nil kind limit h0 fuel w hw1
        have := ih hw2 hbad2
          (lines ++ (if cur = [] then [] else [render cur]) ++ (splitPure kind limit fuel w).1)
          [(splitPure kind limit fuel w).2] (by simpa using hlast)
        rw [render_singleton, groupWidth_singleton] at this
        exact this
      · rw [wrapStep_append kind limit fuel lines cur w hp h]
        simp only [Outcome.bind]
        apply ih hw2 hbad2
        intro p hp'
        rcases List.mem_append.1 hp' with hp' | hp'
        · exact hp p hp'
        · simp at hp'; subst hp'; exact hw1
    · have hgt : getWordWidth kind w > limit := by
        by_contra hle
        rw [splitPure_of_le kind limit fuel w (by omega)] at hg1
        exact hg1 (by simpa using (by omega : getWordWidth kind w ≤ limit))
      have h : groupWidth kind cur + getWordWidth kind w > limit := by
        have := groupWidth_nonneg kind cur
        omega
      rw [wrapStep_flush kind limit h0 fuel lines cur w hp h, if_pos (by omega)]
      rfl

end Packing

/-! ## `strings.Fields` -/

section FieldsLemmas

theorem fieldsLoop_mem (s cur : GoString) (hcur : ∀ r ∈ cur, isSpace r = false) :
    ∀ w ∈ fieldsLoop s cur,
      w ≠ [] ∧ (∀ r ∈ w, isSpace r = false ∧ (r ∈ cur ∨ r ∈ s)) ∧
        w.length ≤ cur.length + s.length := by
  induction s generalizing cur with
  | nil =>
    intro w hw
    unfold fieldsLoop at hw
    split at hw
    · simp at hw
    · rename_i hne
      simp at hw
      subst hw
      exact ⟨hne, fun r hr => ⟨hcur r hr, Or.inl hr⟩, by simp⟩
  | cons r rest ih =>
    intro w hw
    unfold fieldsLoop at hw
    by_cases hsp : isSpace r = true
    · rw [if_pos hsp] at hw
      by_cases hc : cur = []
      · rw [if_pos hc] at hw
        obtain ⟨h1, h2, h3⟩ := ih [] (by simp) w hw
        refine ⟨h1, fun x hx => ⟨(h2 x hx).1, ?_⟩, by simp at h3 ⊢; omega⟩
        rcases (h2 x hx).2 with h | h
        · simp at h
        · exact Or.inr (List.mem_cons_of_mem _ h)
      · rw [if_neg hc] at hw
        rcases List.mem_cons.1 hw with rfl | hw
        · exact ⟨hc, fun x hx => ⟨hcur x hx, Or.inl hx⟩, by simp⟩
        · obtain ⟨h1, h2, h3⟩ := ih [] (by simp) w hw
          refine ⟨h1, fun x hx => ⟨(h2 x hx).1, ?_⟩, by simp at h3 ⊢; omega⟩
          rcases (h2 x hx).2 with h | h
          · simp at h
          · exact Or.inr (List.mem_cons_of_mem _ h)
    · rw [if_neg hsp] at hw
      have hr : isSpace r = false := by simpa using hsp
      have hcur' : ∀ x ∈ cur ++ [r], isSpace x = false := by
        intro x hx
        rcases List.mem_append.1 hx with hx | hx
        · exact hcur x hx
        · simp at hx; subst hx; exact hr
      obtain ⟨h1, h2, h3⟩ := ih (cur ++ [r]) hcur' w hw
      refine ⟨h1, fun x hx => ⟨(h2 x hx).1, ?_⟩, by simp at h3 ⊢; omega⟩
      rcases (h2 x hx).2 with h | h
      · rcases List.mem_append.1 h with h | h
        · exact Or.inl h
        · simp at h; subst h; exact Or.inr (List.mem_cons_self _ _)
      · exact Or.inr (List.mem_cons_of_mem _ h)

theorem Fields_solid (s : GoString) : ∀ w ∈ Fields s, Solid w := by
  intro w hw
  obtain ⟨h1, h2, _⟩ := fieldsLoop_mem s [] (by simp) w hw
  exact ⟨h1, fun r hr => (h2 r hr).1⟩

theorem Fields_ne_nil (s : GoString) : ∀ w ∈ Fields s, w ≠ [] :=
  fun w hw => (Fields_solid s w hw).1

theorem Fields_mem_text (s : GoString) : ∀ w ∈ Fields s, ∀ r ∈ w, r ∈ s := by
  intro w hw r hr
  obtain ⟨_, h2, _⟩ := fieldsLoop_mem s [] (by simp) w hw
  rcases (h2 r hr).2 with h | h
  · simp at h
  · exact h

theorem Fields_length_le (s : GoString) : ∀ w ∈ Fields s, w.length ≤ s.length := by
  intro w hw
  obtain ⟨_, _, h3⟩ := fieldsLoop_mem s [] (by simp) w hw
  simpa using h3

theorem fieldsLoop_append (w rest cur : GoString) (hw : ∀ r ∈ w, isSpace r = false) :
    fieldsLoop (w ++ rest) cur = fieldsLoop rest (cur ++ w) := by
  induction w generalizing cur with
  | nil => simp
  | cons r w ih =>
    have hr : isSpace r = false := hw r (List.mem_cons_self _ _)
    rw [List.cons_append, fieldsLoop]
    simp only [hr]
    rw [if_neg (by simp), ih (cur ++ [r]) (fun x hx => hw x (List.mem_cons_of_mem _ hx))]
    simp

theorem Fields_whitespace (s : GoString) (h : ∀ r ∈ s, isSpace r = true) : Fields s = [] := by
  unfold Fields
  induction s with
  | nil => rfl
  | cons r rest ih =>
    unfold fieldsLoop
    rw [if_pos (h r (List.mem_cons_self _ _)), if_pos rfl]
    exact ih (fun x hx => h x (List.mem_cons_of_mem _ hx))

theorem Fields_render (words : List GoString) (hw : ∀ w ∈ words, Solid w) :
    Fields (render words) = words := by
  induction words with
  | nil => rfl
  | cons a rest ih =>
    have ha := hw a (List.mem_cons_self _ _)
    cases rest with
    | nil =>
      rw [render_singleton]
      unfold Fields
      have := fieldsLoop_append a [] [] ha.2
      simp only [List.append_nil, List.nil_append] at this
      rw [this, fieldsLoop, if_neg ha.1]
    | cons b l =>
      have ih' := ih (fun x hx => hw x (List.mem_cons_of_mem _ hx))
      rw [render_cons_cons]
      unfold Fields at ih' ⊢
      rw [fieldsLoop_append a _ [] ha.2, List.nil_append, fieldsLoop]
      have hsp : isSpace ' ' = true := by decide
      rw [if_pos hsp, if_neg ha.1, ih']

end FieldsLemmas

/-! ## `Wrap` computes `layout` on the words of the text -/

section WrapLayout

variable (kind : Char → Kind)

theorem Wrap_eq (limit : Int) (h1 : 1 ≤ limit) (fuel : Nat) (s : GoString) :
    Wrap kind fuel s limit = wrapLoop kind limit fuel (Fields s) ⟨[], [], 0⟩ := by
  unfold Wrap
  by_cases hs : s = []
  · subst hs
    simp [Fields, fieldsLoop, wrapLoop]
  · rw [if_neg hs, if_neg (by omega)]
    have hdiv : 0 ≤ Int.tdiv (byteLen s) limit :=
      Int.tdiv_nonneg (Int.ofNat_nonneg _) (by omega)
    have hmul : 0 ≤ Int.tdiv (byteLen s) limit * (limit + 1) :=
      Int.mul_nonneg hdiv (by omega)
    simp only
    rw [if_neg (by omega)]

theorem Wrap_ok (limit : Int) (h1 : 1 ≤ limit) (fuel : Nat) (s : GoString)
    (hgood : ∀ w ∈ Fields s, getWordWidth kind (splitPure kind limit fuel w).2 ≤ limit) :
    Wrap kind fuel s limit = .ok ((layout kind limit fuel (Fields s) []).map render) := by
  rw [Wrap_eq kind limit h1]
  have := wrapLoop_ok kind limit (by omega) fuel (Fields s) (Fields_ne_nil s) hgood [] []
    (by simp)
  simpa [render_nil] using this

theorem Wrap_outOfFuel (limit : Int) (h1 : 1 ≤ limit) (fuel : Nat) (s : GoString)
    (hbad : ∃ w ∈ Fields s, ¬ getWordWidth kind (splitPure kind limit fuel w).2 ≤ limit) :
    Wrap kind fuel s limit = .outOfFuel := by
  rw [Wrap_eq kind limit h1]
  have := wrapLoop_outOfFuel kind limit (by omega) fuel (Fields s) (Fields_ne_nil s) hbad [] []
    (by simp)
  simpa [render_nil] using this

theorem Wrap_good_of_ok (limit : Int) (h1 : 1 ≤ limit) (fuel : Nat) (s : GoString)
    (lines : List GoString) (h : Wrap kind fuel s limit = .ok lines) :
    ∀ w ∈ Fields s, getWordWidth kind (splitPure kind limit fuel w).2 ≤ limit := by
  by_contra hbad
  push_neg at hbad
  obtain ⟨w, hw, hw'⟩ := hbad
  rw [Wrap_outOfFuel kind limit h1 fuel s ⟨w, hw, by omega⟩] at h
  cases h

theorem Wrap_good_of_fits (limit : Int) (h1 : 1 ≤ limit) (fuel : Nat) (s : GoString)
    (hr : ∀ r ∈ s, runeWidth kind r ≤ limit) (hf : s.length ≤ fuel) :
    ∀ w ∈ Fields s, getWordWidth kind (splitPure kind limit fuel w).2 ≤ limit := by
  intro w hw
  apply splitPure_fits kind limit (by omega) fuel w
  · exact fun r hr' => hr r (Fields_mem_text s w hw r hr')
  · exact le_trans (Fields_length_le s w hw) hf

theorem Wrap_good_of_words (limit : Int) (fuel : Nat) (s : GoString)
    (hw : ∀ w ∈ Fields s, getWordWidth kind w ≤ limit) :
    ∀ w ∈ Fields s, getWordWidth kind (splitPure kind limit fuel w).2 ≤ limit := by
  intro w hw'
  rw [splitPure_of_le kind limit fuel w (hw w hw')]
  exact hw w hw'

theorem splitPure_never_fits (limit : Int) (h0 : 0 ≤ limit) (fuel : Nat) (w : GoString)
    (hbad : ∃ r ∈ w, limit < runeWidth kind r) :
    ¬ getWordWidth kind (splitPure kind limit fuel w).2 ≤ limit := by
  induction fuel generalizing w with
  | zero =>
    obtain ⟨r, hr, hlt⟩ := hbad
    have := runeWidth_le_getWordWidth kind hr
    simp only [splitPure]
    omega
  | succ fuel ih =>
    obtain ⟨r, hr, hlt⟩ := hbad
    have hgt : getWordWidth kind w > limit := by
      have := runeWidth_le_getWordWidth kind hr
      omega
    rw [splitPure, if_pos hgt]
    apply ih
    refine ⟨r, ?_, hlt⟩
    rw [← fitPrefix_append_drop kind limit 0 w] at hr
    rcases List.mem_append.1 hr with hr | hr
    · have h1 := runeWidth_le_getWordWidth kind hr
      have h2 := fitPrefix_width kind limit 0 w h0
      omega
    · exact hr

/-- A word with a code point wider than the limit: the split loop never ends. -/
theorem Wrap_diverges (limit : Int) (h1 : 1 ≤ limit) (fuel : Nat) (s : GoString)
    (hbad : ∃ w ∈ Fields s, ∃ r ∈ w, limit < runeWidth kind r) :
    Wrap kind fuel s limit = .outOfFuel := by
  obtain ⟨w, hw, hr⟩ := hbad
  exact Wrap_outOfFuel kind limit h1 fuel s
    ⟨w, hw, splitPure_never_fits kind limit (by omega) fuel w hr⟩

theorem flatten_map_singleton (l : List GoString) : (l.map (fun f => [f])).flatten = l := by
  induction l with
  | nil => rfl
  | cons a rest ih => simp [ih]

theorem layout_flatten (limit : Int) (fuel : Nat) (words cur : List GoString) :
    (layout kind limit fuel words cur).flatten = cur ++ words.flatMap (pieces kind limit fuel) := by
  induction words generalizing cur with
  | nil => unfold layout; split <;> simp_all
  | cons w ws ih =>
    unfold layout
    split
    · rw [List.flatten_append, List.flatten_append, ih, flatten_map_singleton]
      by_cases hc : cur = [] <;> simp [hc, pieces]
    · rename_i h
      have := groupWidth_nonneg kind cur
      rw [ih, List.flatMap_cons, pieces, splitPure_of_le kind limit fuel w (by omega)]
      simp

theorem layout_group_ne_nil (limit : Int) (fuel : Nat) (words cur : List GoString) :
    ∀ g ∈ layout kind limit fuel words cur, g ≠ [] := by
  induction words generalizing cur with
  | nil =>
    unfold layout
    split
    · simp
    · intro g hg; simp at hg; subst hg; assumption
  | cons w ws ih =>
    unfold layout
    split
    · intro g hg
      rcases List.mem_append.1 hg with hg | hg
      · rcases List.mem_append.1 hg with hg | hg
        · split at hg
          · simp at hg
          · simp at hg; subst hg; assumption
        · obtain ⟨f, _, rfl⟩ := List.mem_map.1 hg
          simp
      · exact ih _ g hg
    · exact ih _

theorem layout_width (limit : Int) (h0 : 0 ≤ limit) (fuel : Nat) (words cur : List GoString)
    (hgood : ∀ w ∈ words, getWordWidth kind (splitPure kind limit fuel w).2 ≤ limit)
    (hcur : groupWidth kind cur ≤ limit + 1 ∧ (cur.length ≤ 1 → groupWidth kind cur ≤ limit)) :
    ∀ g ∈ layout kind limit fuel words cur,
      groupWidth kind g ≤ limit + 1 ∧ (g.length ≤ 1 → groupWidth kind g ≤ limit) := by
  induction words generalizing cur with
  | nil =>
    unfold layout
    split
    · simp
    · intro g hg; simp at hg; subst hg; exact hcur
  | cons w ws ih =>
    have hg1 := hgood w (List.mem_cons_self _ _)
    have hg2 : ∀ x ∈ ws, getWordWidth kind (splitPure kind limit fuel x).2 ≤ limit :=
      fun x hx => hgood x (List.mem_cons_of_mem _ hx)
    unfold layout
    split
    · intro g hg
      rcases List.mem_append.1 hg with hg | hg
      · rcases List.mem_append.1 hg with hg | hg
        · split at hg
          · simp at hg
          · simp at hg; subst hg; exact hcur
        · obtain ⟨f, hf, rfl⟩ := List.mem_map.1 hg
          have := splitPure_frag_width kind limit h0 fuel w f hf
          simp only [groupWidth_singleton]
          exact ⟨by omega, fun _ => this⟩
      · apply ih _ hg2 _ g hg
        simp only [groupWidth_singleton]
        exact ⟨by omega, fun _ => hg1⟩
    · rename_i h
      apply ih _ hg2
      by_cases hc : cur = []
      · subst hc
        simp only [List.nil_append, groupWidth_singleton]
        simp only [groupWidth_nil] at h
        exact ⟨by omega, fun _ => by omega⟩
      · rw [groupWidth_append_singleton kind _ _ hc]
        have : 0 < cur.length := List.length_pos.2 hc
        have hlen : (cur ++ [w]).length = cur.length + 1 := by simp
        exact ⟨by omega, fun hl => by omega⟩

end WrapLayout

/-! ## Lines as rendered groups of pieces -/

section Rendering

variable (kind : Char → Kind)

theorem isSpace_space : isSpace ' ' = true := by decide

theorem Solid.ne_space {w : GoString} (h : Solid w) : ∀ r ∈ w, r ≠ ' ' := by
  intro r hr heq
  have := h.2 r hr
  rw [heq, isSpace_space] at this
  cases this

theorem displayWidth_render (g : List GoString) (hg : ∀ p ∈ g, ∀ r ∈ p, r ≠ ' ') :
    displayWidth kind (render g) = groupWidth kind g := by
  induction g with
  | nil => rfl
  | cons a rest ih =>
    have ha := displayWidth_eq_getWordWidth kind (hg a (List.mem_cons_self _ _))
    cases rest with
    | nil => simpa [render_singleton] using ha
    | cons b l =>
      have ih' := ih (fun p hp => hg p (List.mem_cons_of_mem _ hp))
      rw [render_cons_cons, displayWidth_append, displayWidth_cons, ih', ha]
      simp only [groupWidth, List.map_cons, List.sum_cons, List.length_cons, if_true]
      push_cast
      omega

theorem pieces_flatten (limit : Int) (fuel : Nat) (w : GoString) :
    (pieces kind limit fuel w).flatten = w := by
  simpa [pieces] using splitPure_flatten kind limit fuel w

theorem pieces_of_le (limit : Int) (fuel : Nat) (w : GoString)
    (h : getWordWidth kind w ≤ limit) : pieces kind limit fuel w = [w] := by
  simp [pieces, splitPure_of_le kind limit fuel w h]

theorem pieces_solid (limit : Int) (h0 : 0 ≤ limit) (fuel : Nat) (w : GoString) (hw : Solid w)
    (hgood : getWordWidth kind (splitPure kind limit fuel w).2 ≤ limit) :
    ∀ p ∈ pieces kind limit fuel w, Solid p := by
  intro p hp
  constructor
  · rcases List.mem_append.1 hp with hp | hp
    · exact splitPure_frag_ne_nil kind limit fuel w hgood p hp
    · simp at hp; subst hp
      exact splitPure_last_ne_nil kind limit h0 fuel w hw.1
  · intro r hr
    apply hw.2
    rw [← pieces_flatten kind limit fuel w]
    exact List.mem_flatten_of_mem hp hr

theorem layout_solid (limit : Int) (h0 : 0 ≤ limit) (fuel : Nat) (words : List GoString)
    (hw : ∀ w ∈ words, Solid w)
    (hgood : ∀ w ∈ words, getWordWidth kind (splitPure kind limit fuel w).2 ≤ limit) :
    ∀ g ∈ layout kind limit fuel words [], ∀ p ∈ g, Solid p := by
  intro g hg p hp
  have hmem : p ∈ (layout kind limit fuel words []).flatten := List.mem_flatten_of_mem hg hp
  rw [layout_flatten, List.nil_append, List.mem_flatMap] at hmem
  obtain ⟨w, hw', hp'⟩ := hmem
  exact pieces_solid kind limit h0 fuel w (hw w hw') (hgood w hw') p hp'

theorem splitPure_succ_gt (limit : Int) (fuel : Nat) (w : GoString)
    (hgt : getWordWidth kind w > limit) :
    splitPure kind limit (fuel + 1) w =
      (fitPrefix kind limit 0 w ::
          (splitPure kind limit fuel (w.drop (fitPrefix kind limit 0 w).length)).1,
        (splitPure kind limit fuel (w.drop (fitPrefix kind limit 0 w).length)).2) := by
  rw [splitPure, if_pos hgt]

theorem splitPure_mono (limit : Int) (fuel fuel' : Nat) (w : GoString) (hle : fuel ≤ fuel')
    (hgood : getWordWidth kind (splitPure kind limit fuel w).2 ≤ limit) :
    splitPure kind limit fuel' w = splitPure kind limit fuel w := by
  induction fuel generalizing fuel' w with
  | zero =>
    simp only [splitPure] at hgood ⊢
    exact splitPure_of_le kind limit fuel' w hgood
  | succ fuel ih =>
    obtain ⟨k, rfl⟩ : ∃ k, fuel' = k + 1 := ⟨fuel' - 1, by omega⟩
    by_cases hgt : getWordWidth kind w > limit
    · rw [splitPure_succ_gt kind limit fuel w hgt] at hgood ⊢
      rw [splitPure_succ_gt kind limit k w hgt, ih k _ (by omega) hgood]
    · rw [splitPure_of_le kind limit _ w (by omega), splitPure_of_le kind limit _ w (by omega)]

theorem layout_congr (limit : Int) (fuel fuel' : Nat) (words cur : List GoString)
    (h : ∀ w ∈ words, splitPure kind limit fuel' w = splitPure kind limit fuel w) :
    layout kind limit fuel' words cur = layout kind limit fuel words cur := by
  induction words generalizing cur with
  | nil => rfl
  | cons w ws ih =>
    have h2 : ∀ x ∈ ws, splitPure kind limit fuel' x = splitPure kind limit fuel x :=
      fun x hx => h x (List.mem_cons_of_mem _ hx)
    unfold layout
    rw [h w (List.mem_cons_self _ _), ih _ h2, ih _ h2]

/-- More fuel does not change a result. -/
theorem Wrap_mono (limit : Int) (h1 : 1 ≤ limit) (fuel fuel' : Nat) (s : GoString)
    (lines : List GoString) (hle : fuel ≤ fuel') (h : Wrap kind fuel s limit = .ok lines) :
    Wrap kind fuel' s limit = .ok lines := by
  have hgood := Wrap_good_of_ok kind limit h1 fuel s lines h
  have hsame : ∀ w ∈ Fields s, splitPure kind limit fuel' w = splitPure kind limit fuel w :=
    fun w hw => splitPure_mono kind limit fuel fuel' w hle (hgood w hw)
  have hgood' : ∀ w ∈ Fields s,
      getWordWidth kind (splitPure kind limit fuel' w).2 ≤ limit := by
    intro w hw; rw [hsame w hw]; exact hgood w hw
  rw [Wrap_ok kind limit h1 fuel s hgood] at h
  rw [Wrap_ok kind limit h1 fuel' s hgood', layout_congr kind limit fuel fuel' _ _ hsame]
  exact h

theorem splitOn_render (g : List GoString) (hne : g ≠ [])
    (hg : ∀ p ∈ g, ∀ r ∈ p, r ≠ ' ') : (render g).splitOn ' ' = g := by
  unfold render
  apply List.splitOn_intercalate
  · intro l hl hmem
    exact hg l hl ' ' hmem rfl
  · exact hne

theorem filter_render (g : List GoString) (hg : ∀ p ∈ g, ∀ r ∈ p, r ≠ ' ') :
    (render g).filter (fun r => r ≠ ' ') = g.flatten := by
  induction g with
  | nil => rfl
  | cons a rest ih =>
    have ha : a.filter (fun r => r ≠ ' ') = a :=
      List.filter_eq_self.2 (fun r hr => by simpa using hg a (List.mem_cons_self _ _) r hr)
    cases rest with
    | nil => simpa [render_singleton] using ha
    | cons b l =>
      have ih' := ih (fun p hp => hg p (List.mem_cons_of_mem _ hp))
      rw [render_cons_cons, List.filter_append, ha, List.filter_cons, ih']
      simp

theorem flatten_flatMap_pieces (limit : Int) (fuel : Nat) (words : List GoString) :
    (words.flatMap (pieces kind limit fuel)).flatten = words.flatten := by
  induction words with
  | nil => rfl
  | cons w ws ih => simp [ih, pieces_flatten]

theorem flatMap_pieces_of_le (limit : Int) (fuel : Nat) (words : List GoString)
    (hw : ∀ w ∈ words, getWordWidth kind w ≤ limit) :
    words.flatMap (pieces kind limit fuel) = words := by
  induction words with
  | nil => rfl
  | cons w ws ih =>
    rw [List.flatMap_cons, pieces_of_le kind limit fuel w (hw w (List.mem_cons_self _ _)),
      ih (fun x hx => hw x (List.mem_cons_of_mem _ hx))]
    rfl

theorem pieces_ne_nil (limit : Int) (fuel : Nat) (w : GoString) :
    pieces kind limit fuel w ≠ [] := by
  simp [pieces]

theorem render_append (a b : List GoString) (ha : a ≠ []) (hb : b ≠ []) :
    render (a ++ b) = render a ++ ' ' :: render b := by
  induction a with
  | nil => exact absurd rfl ha
  | cons x rest ih =>
    cases rest with
    | nil =>
      obtain ⟨y, ys, rfl⟩ := List.exists_cons_of_ne_nil hb
      simp [render_cons_cons, render_singleton]
    | cons z l =>
      have := ih (by simp)
      simp only [List.cons_append] at this ⊢
      rw [render_cons_cons, render_cons_cons, this]
      simp

theorem render_map_render (G : List (List GoString)) (hG : ∀ g ∈ G, g ≠ []) :
    render (G.map render) = render G.flatten := by
  induction G with
  | nil => rfl
  | cons g rest ih =>
    have hg : g ≠ [] := hG g (List.mem_cons_self _ _)
    cases rest with
    | nil => simp [render_singleton]
    | cons g' l =>
      have ih' := ih (fun x hx => hG x (List.mem_cons_of_mem _ hx))
      have hg' : g' ≠ [] := hG g' (List.mem_cons_of_mem _ (List.mem_cons_self _ _))
      have hne : (g' :: l).flatten ≠ [] := by
        obtain ⟨y, ys, rfl⟩ := List.exists_cons_of_ne_nil hg'
        simp
      have e : (g :: g' :: l).flatten = g ++ (g' :: l).flatten := rfl
      simp only [List.map_cons] at ih' ⊢
      rw [render_cons_cons, ih', e, render_append g _ hg hne]

theorem layout_chain (limit : Int) (fuel : Nat) (words cur : List GoString)
    (hw : ∀ w ∈ words, getWordWidth kind w ≤ limit) :
    List.Chain' (fun g₁ g₂ => ∀ w ∈ g₂.head?, limit < groupWidth kind g₁ + getWordWidth kind w)
        (layout kind limit fuel words cur) ∧
      ∀ g ∈ (layout kind limit fuel words cur).head?, cur <+: g := by
  induction words generalizing cur with
  | nil =>
    unfold layout
    split
    · simp
    · simp
  | cons w ws ih =>
    have hw1 := hw w (List.mem_cons_self _ _)
    have hw2 : ∀ x ∈ ws, getWordWidth kind x ≤ limit :=
      fun x hx => hw x (List.mem_cons_of_mem _ hx)
    unfold layout
    split
    · rename_i h
      rw [splitPure_of_le kind limit fuel w hw1]
      obtain ⟨ih1, ih2⟩ := ih [w] hw2
      by_cases hc : cur = []
      · subst hc
        simp only [if_true, List.map_nil, List.append_nil, List.nil_append]
        exact ⟨ih1, fun g _ => List.nil_prefix⟩
      · simp only [hc, if_false, List.map_nil, List.append_nil, List.singleton_append]
        refine ⟨List.chain'_cons'.2 ⟨?_, ih1⟩, by simp⟩
        intro g hg x hx
        obtain ⟨t, rfl⟩ := ih2 g hg
        simp at hx
        subst hx
        omega
    · obtain ⟨ih1, ih2⟩ := ih (cur ++ [w]) hw2
      refine ⟨ih1, fun g hg => ?_⟩
      exact (List.prefix_append cur [w]).trans (ih2 g hg)

theorem takeWhile_render (a : GoString) (rest : List GoString) (ha : ∀ r ∈ a, r ≠ ' ') :
    (render (a :: rest)).takeWhile (fun r => r ≠ ' ') = a := by
  have key : ∀ (t : GoString), (t = [] ∨ t.head? = some ' ') →
      (a ++ t).takeWhile (fun r => r ≠ ' ') = a := by
    intro t ht
    induction a with
    | nil =>
      rcases ht with rfl | ht
      · rfl
      · cases t with
        | nil => rfl
        | cons c cs => simp at ht; subst ht; simp
    | cons c cs ih =>
      have hc : c ≠ ' ' := ha c (List.mem_cons_self _ _)
      rw [List.cons_append, List.takeWhile_cons]
      simp only [hc, ne_eq, not_false_eq_true, decide_True, if_true]
      rw [ih (fun r hr => ha r (List.mem_cons_of_mem _ hr))]
  cases rest with
  | nil => simpa [render_singleton] using key [] (Or.inl rfl)
  | cons b l =>
    rw [render_cons_cons]
    exact key _ (Or.inr rfl)

theorem render_head (a : GoString) (rest : List GoString) (ha : a ≠ []) :
    (render (a :: rest)).head? = a.head? := by
  obtain ⟨c, cs, rfl⟩ := List.exists_cons_of_ne_nil ha
  cases rest with
  | nil => rw [render_singleton]
  | cons b l => rw [render_cons_cons]; rfl

theorem render_getLast (init : List GoString) (z : GoString) (hz : z ≠ []) :
    (render (init ++ [z])).getLast? = z.getLast? := by
  obtain ⟨x, hx⟩ : ∃ x, z.getLast? = some x := by
    cases h : z.getLast? with
    | none => exact absurd (List.getLast?_eq_none_iff.1 h) hz
    | some x => exact ⟨x, rfl⟩
  by_cases hi : init = []
  · subst hi; simp [render_singleton]
  · rw [render_append_singleton init z hi, List.getLast?_append, hx]
    rfl

theorem render_mem (g : List GoString) :
    ∀ r ∈ render g, r = ' ' ∨ ∃ p ∈ g, r ∈ p := by
  induction g with
  | nil => intro r hr; simp [render_nil] at hr
  | cons a rest ih =>
    cases rest with
    | nil =>
      intro r hr
      rw [render_singleton] at hr
      exact Or.inr ⟨a, by simp, hr⟩
    | cons b l =>
      intro r hr
      rw [render_cons_cons] at hr
      rcases List.mem_append.1 hr with hr | hr
      · exact Or.inr ⟨a, by simp, hr⟩
      · rcases List.mem_cons.1 hr with hr | hr
        · exact Or.inl hr
        · rcases ih r hr with h | ⟨p, hp, hrp⟩
          · exact Or.inl h
          · exact Or.inr ⟨p, List.mem_cons_of_mem _ hp, hrp⟩

theorem chain_of_no_space (a : GoString) (ha : ∀ r ∈ a, r ≠ ' ') :
    List.Chain' (fun x y : Char => ¬(x = ' ' ∧ y = ' ')) a := by
  induction a with
  | nil => exact List.chain'_nil
  | cons c cs ih =>
    rw [List.chain'_cons']
    refine ⟨fun y _ h => ha c (List.mem_cons_self _ _) h.1,
      ih (fun r hr => ha r (List.mem_cons_of_mem _ hr))⟩

theorem render_chain (g : List GoString) (hs : ∀ p ∈ g, Solid p) :
    List.Chain' (fun x y : Char => ¬(x = ' ' ∧ y = ' ')) (render g) := by
  induction g with
  | nil => exact List.chain'_nil
  | cons a rest ih =>
    have ha := hs a (List.mem_cons_self _ _)
    cases rest with
    | nil => rw [render_singleton]; exact chain_of_no_space a ha.ne_space
    | cons b l =>
      have hb := hs b (List.mem_cons_of_mem _ (List.mem_cons_self _ _))
      have ih' := ih (fun p hp => hs p (List.mem_cons_of_mem _ hp))
      rw [render_cons_cons, List.chain'_append]
      refine ⟨chain_of_no_space a ha.ne_space, ?_, ?_⟩
      · rw [List.chain'_cons']
        refine ⟨?_, ih'⟩
        intro y hy h
        rw [render_head b l hb.1] at hy
        exact hb.ne_space y (List.mem_of_mem_head? hy) h.2
      · intro x hx y _ h
        exact ha.ne_space x (List.mem_of_mem_getLast? hx) h.1

theorem render_shape (g : List GoString) (hne : g ≠ []) (hs : ∀ p ∈ g, Solid p) :
    render g ≠ [] ∧ (render g).head? ≠ some ' ' ∧ (render g).getLast? ≠ some ' ' ∧
      ¬ [' ', ' '] <:+: render g ∧ ∀ r ∈ render g, isSpace r = true → r = ' ' := by
  refine ⟨render_ne_nil g hne (fun p hp => (hs p hp).1), ?_, ?_, ?_, ?_⟩
  · obtain ⟨a, rest, rfl⟩ := List.exists_cons_of_ne_nil hne
    have ha := hs a (List.mem_cons_self _ _)
    rw [render_head a rest ha.1]
    intro h
    exact ha.ne_space ' ' (List.mem_of_mem_head? h) rfl
  · rcases List.eq_nil_or_concat g with h | ⟨init, z, h⟩
    · exact absurd h hne
    · rw [List.concat_eq_append] at h
      subst h
      have hz := hs z (by simp)
      rw [render_getLast init z hz.1]
      intro h
      exact hz.ne_space ' ' (List.mem_of_mem_getLast? h) rfl
  · intro hinf
    have := List.Chain'.infix (render_chain g hs) hinf
    rw [List.chain'_pair] at this
    exact this ⟨rfl, rfl⟩
  · intro r hr hsp
    rcases render_mem g r hr with h | ⟨p, hp, hrp⟩
    · exact h
    · have := (hs p hp).2 r hrp
      rw [hsp] at this
      cases this

theorem chain_dropLast {α : Type} (R : α → α → Prop) (l : List α) (h : List.Chain' R l) :
    ∀ x ∈ l.dropLast, ∃ y ∈ l, R x y := by
  induction l with
  | nil => simp
  | cons a rest ih =>
    cases rest with
    | nil => simp
    | cons b t =>
      rw [List.chain'_cons'] at h
      intro x hx
      rw [List.dropLast_cons₂] at hx
      rcases List.mem_cons.1 hx with rfl | hx
      · exact ⟨b, by simp, h.1 b rfl⟩
      · obtain ⟨y, hy, hR⟩ := ih h.2 x hx
        exact ⟨y, List.mem_cons_of_mem _ hy, hR⟩

theorem getWordWidth_unit (w : GoString) (h : ∀ r ∈ w, runeWidth kind r = 1) :
    getWordWidth kind w = w.length := by
  induction w with
  | nil => rfl
  | cons c cs ih =>
    rw [getWordWidth_cons, h c (List.mem_cons_self _ _),
      ih (fun r hr => h r (List.mem_cons_of_mem _ hr))]
    simp; omega

theorem layout_single (limit : Int) (fuel : Nat) (word : GoString) :
    (layout kind limit fuel [word] []).map render = pieces kind limit fuel word := by
  unfold layout layout
  by_cases h : groupWidth kind [] + getWordWidth kind word > limit
  · rw [if_pos h]
    simp [pieces, Function.comp_def, render_singleton]
  · rw [if_neg h]
    simp only [groupWidth_nil, zero_add] at h
    rw [pieces_of_le kind limit fuel word (by omega)]
    simp [render_singleton]

/-- Every line of a result of `Wrap`, for limit >= 1, is at most limit + 1
wide. -/
theorem Wrap_lines_width (fuel : Nat) (s : GoString) (limit : Int) (h1 : 1 ≤ limit)
    (lines : List GoString) (h : Wrap kind fuel s limit = .ok lines) :
    ∀ line ∈ lines, displayWidth kind line ≤ limit + 1 := by
  intro line hline
  have hgood := Wrap_good_of_ok kind limit h1 fuel s lines h
  rw [Wrap_ok kind limit h1 fuel s hgood] at h
  cases h
  obtain ⟨g, hg, rfl⟩ := List.mem_map.1 hline
  have hsolid := layout_solid kind limit (by omega) fuel (Fields s) (Fields_solid s) hgood g hg
  rw [displayWidth_render kind g (fun p hp => (hsolid p hp).ne_space)]
  exact (layout_width kind limit (by omega) fuel (Fields s) [] hgood
    ⟨by simp; omega, fun _ => by simp; omega⟩ g hg).1

end Rendering

/-! ## The splitter's offsets, and limits that are not positive -/

section Offsets

variable (kind : Char → Kind)

theorem getSplitPos_first_wide (limit : Int) (r : Char) (rest : GoString)
    (h : limit < runeWidth kind r) : getSplitPos kind (r :: rest) limit = 0 := by
  unfold getSplitPos getSplitPosLoop
  rw [if_pos (by omega)]

theorem getSplitPos_cut (limit : Int) (h0 : 0 ≤ limit) (word : GoString)
    (h : limit < getWordWidth kind word) :
    ∃ pre r post, word = pre ++ r :: post ∧ getSplitPos kind word limit = byteLen pre ∧
      getWordWidth kind pre ≤ limit ∧ limit < getWordWidth kind (pre ++ [r]) ∧
      sliceAt word (getSplitPos kind word limit) = .ok (pre, r :: post) := by
  obtain ⟨r, post, h1, h2⟩ := fitPrefix_maximal kind limit 0 word h0 (by omega)
  have h3 := fitPrefix_width kind limit 0 word h0
  have h4 := fitPrefix_append_drop kind limit 0 word
  have h5 := sliceAt_getSplitPos kind limit word h0 h
  rw [h1] at h4 h5
  refine ⟨fitPrefix kind limit 0 word, r, post, h4.symm,
    getSplitPos_of_gt kind limit word h0 h, by omega, ?_, h5⟩
  simp only [getWordWidth_append, getWordWidth_cons, getWordWidth_nil]
  omega

theorem splitLoop_first_wide (limit : Int) (fuel : Nat) (lines : List GoString) (r : Char)
    (rest : GoString) (h : limit < runeWidth kind r) :
    splitLoop kind limit fuel lines (r :: rest) = .outOfFuel := by
  have hgt : getWordWidth kind (r :: rest) > limit := by
    have := getWordWidth_nonneg kind rest
    simp only [getWordWidth_cons]
    omega
  induction fuel generalizing lines with
  | zero => rw [splitLoop, if_pos hgt]
  | succ fuel ih =>
    rw [splitLoop, if_pos hgt, getSplitPos_first_wide kind limit r rest h, sliceAt_zero]
    exact ih _

theorem wrapLoop_neg (limit : Int) (hneg : limit < 0) (fuel : Nat) (w : GoString)
    (ws : List GoString) (hw : w ≠ []) :
    wrapLoop kind limit fuel (w :: ws) ⟨[], [], 0⟩ = .outOfFuel := by
  obtain ⟨r, rest, rfl⟩ := List.exists_cons_of_ne_nil hw
  have hr := runeWidth_pos kind r
  have hgt : (0 : Int) + getWordWidth kind (r :: rest) > limit := by
    have := getWordWidth_nonneg kind rest
    simp only [getWordWidth_cons]
    omega
  unfold wrapLoop wrapStep
  simp only [if_pos hgt, lt_self_iff_false, if_false]
  rw [splitLoop_first_wide kind limit fuel [] r rest (by omega)]
  rfl

theorem Wrap_neg_eq (limit : Int) (hneg : limit < 0) (fuel : Nat) (s : GoString) :
    Wrap kind fuel s limit = wrapLoop kind limit fuel (Fields s) ⟨[], [], 0⟩ := by
  unfold Wrap
  by_cases hs : s = []
  · subst hs
    simp [Fields, fieldsLoop, wrapLoop]
  · rw [if_neg hs, if_neg (by omega)]
    have hdiv : Int.tdiv (byteLen s) limit ≤ 0 :=
      Int.tdiv_nonpos (Int.ofNat_nonneg _) (by omega)
    have hmul : 0 ≤ Int.tdiv (byteLen s) limit * (limit + 1) :=
      Int.mul_nonneg_of_nonpos_of_nonpos hdiv (by omega)
    simp only
    rw [if_neg (by omega)]

end Offsets

/-! ## The claims -/

section Claims

variable (kind : Char → Kind)

/-- C1: a line wider than the limit. On the text "a b" with limit 2, `Wrap`
returns the one line "a b", of display width 3; on the input of the test
"Simple case" with limit 20 its first line is "This is a sample text", of
display width 21. The fit test `lineWidth+wordWidth > limit` leaves out the
joining space that is then written and counted. -/
theorem wrap_line_exceeds_limit :
    ((∀ fuel, Wrap eastAsianKind fuel "a b".toList 2 = .ok ["a b".toList]) ∧
      displayWidth eastAsianKind "a b".toList = 3) ∧
    ((∀ fuel, Wrap eastAsianKind fuel sampleText 20 =
        .ok ["This is a sample text".toList, "that will be wrapped".toList,
          "based on the given".toList, "limit.".toList]) ∧
      displayWidth eastAsianKind "This is a sample text".toList = 21) :=
  ⟨⟨fun fuel => Wrap_mono eastAsianKind 2 (by decide) 0 fuel _ _ (Nat.zero_le _) (by decide),
      by decide⟩,
    ⟨fun fuel => Wrap_mono eastAsianKind 20 (by decide) 0 fuel _ _ (Nat.zero_le _) (by decide),
      by decide⟩⟩

/-- C2: the split loop does not end on the word "世" (one code point of width 2)
with limit 1. The word is wider than the limit, `getSplitPos` returns offset 0,
the slice `word[0:]` is the whole word again, and whatever the fuel `Wrap` is
still in the loop when it runs out. -/
theorem wrap_diverges_wide_limit_one :
    getWordWidth eastAsianKind "世".toList = 2 ∧
    getSplitPos eastAsianKind "世".toList 1 = 0 ∧
    sliceAt "世".toList 0 = .ok ([], "世".toList) ∧
    ∀ fuel, Wrap eastAsianKind fuel "世".toList 1 = .outOfFuel :=
  ⟨by decide, by decide, by decide,
    fun fuel => Wrap_diverges eastAsianKind 1 (by decide) fuel "世".toList
      ⟨"世".toList, by decide, '世', by decide, by decide⟩⟩

/-- C3: word integrity. When every word of the text has width at most
limit >= 1, `Wrap` returns lines which, split on single spaces and
concatenated in line order, are exactly the words of the text. -/
theorem wrap_word_integrity (fuel : Nat) (s : GoString) (limit : Int) (h1 : 1 ≤ limit)
    (hw : ∀ w ∈ Fields s, getWordWidth kind w ≤ limit) :
    ∃ lines, Wrap kind fuel s limit = .ok lines ∧
      (lines.map (fun line => line.splitOn ' ')).flatten = Fields s := by
  have hgood := Wrap_good_of_words kind limit fuel s hw
  refine ⟨_, Wrap_ok kind limit h1 fuel s hgood, ?_⟩
  have hsolid := layout_solid kind limit (by omega) fuel (Fields s) (Fields_solid s) hgood
  have hne := layout_group_ne_nil kind limit fuel (Fields s) []
  have hmap : ((layout kind limit fuel (Fields s) []).map render).map
      (fun line => line.splitOn ' ') = layout kind limit fuel (Fields s) [] := by
    rw [List.map_map]
    conv_rhs => rw [← List.map_id (layout kind limit fuel (Fields s) [])]
    apply List.map_congr_left
    intro g hg
    exact splitOn_render g (hne g hg) (fun p hp => (hsolid g hg p hp).ne_space)
  rw [hmap, layout_flatten, List.nil_append, flatMap_pieces_of_le kind limit fuel _ hw]

/-- C3 at the test "Multiple short words". -/
theorem wrap_word_integrity_witness :
    ∃ lines, Wrap eastAsianKind 0 "Go is fun".toList 5 = .ok lines ∧
      (lines.map (fun line => line.splitOn ' ')).flatten = Fields "Go is fun".toList :=
  wrap_word_integrity eastAsianKind 0 "Go is fun".toList 5 (by decide) (by decide)

/-- C4: content preservation. When every code point of the text has width at
most limit >= 1, `Wrap` returns lines whose concatenation, the spaces deleted,
is the concatenation of the words of the text. -/
theorem wrap_content_preserved (fuel : Nat) (s : GoString) (limit : Int) (h1 : 1 ≤ limit)
    (hr : ∀ r ∈ s, runeWidth kind r ≤ limit) (hf : s.length ≤ fuel) :
    ∃ lines, Wrap kind fuel s limit = .ok lines ∧
      lines.flatten.filter (fun r => r ≠ ' ') = (Fields s).flatten := by
  have hgood := Wrap_good_of_fits kind limit h1 fuel s hr hf
  refine ⟨_, Wrap_ok kind limit h1 fuel s hgood, ?_⟩
  have hsolid := layout_solid kind limit (by omega) fuel (Fields s) (Fields_solid s) hgood
  have hmap : ((layout kind limit fuel (Fields s) []).map render).map
      (List.filter (fun r => r ≠ ' ')) =
        (layout kind limit fuel (Fields s) []).map List.flatten := by
    rw [List.map_map]
    apply List.map_congr_left
    intro g hg
    exact filter_render g (fun p hp => (hsolid g hg p hp).ne_space)
  rw [List.filter_flatten, hmap, ← List.flatten_flatten, layout_flatten, List.nil_append,
    flatten_flatMap_pieces]

/-- C4 on a text with an oversized word, wide code points and mixed white
space. -/
theorem wrap_content_preserved_witness :
    ∃ lines, Wrap eastAsianKind 16 "世界 abcdefg\t b  \n".toList 3 = .ok lines ∧
      lines.flatten.filter (fun r => r ≠ ' ') = (Fields "世界 abcdefg\t b  \n".toList).flatten :=
  wrap_content_preserved eastAsianKind 16 "世界 abcdefg\t b  \n".toList 3 (by decide) (by decide)
    (by decide)

/-- C5: empty result. For limit >= 1, `Wrap` returns no line for a text that is
empty or all white space; for a text with a word it never returns the empty
list, and it returns a non-empty list of lines when every code point has width
at most limit. -/
theorem wrap_empty_result (fuel : Nat) (s : GoString) (limit : Int) (h1 : 1 ≤ limit) :
    ((∀ r ∈ s, isSpace r = true) → Wrap kind fuel s limit = .ok []) ∧
    (Fields s ≠ [] → Wrap kind fuel s limit ≠ .ok []) ∧
    (Fields s ≠ [] → (∀ r ∈ s, runeWidth kind r ≤ limit) → s.length ≤ fuel →
      ∃ lines, Wrap kind fuel s limit = .ok lines ∧ lines ≠ []) := by
  have hnonempty : Fields s ≠ [] → layout kind limit fuel (Fields s) [] ≠ [] := by
    intro hne hl
    have := layout_flatten kind limit fuel (Fields s) []
    rw [hl] at this
    obtain ⟨w, ws, hws⟩ := List.exists_cons_of_ne_nil hne
    rw [hws, List.flatMap_cons] at this
    have hp := pieces_ne_nil kind limit fuel w
    obtain ⟨p, ps, hps⟩ := List.exists_cons_of_ne_nil hp
    rw [hps] at this
    simp at this
  refine ⟨?_, ?_, ?_⟩
  · intro hsp
    rw [Wrap_eq kind limit h1, Fields_whitespace s hsp]
    rfl
  · intro hne h
    have hgood := Wrap_good_of_ok kind limit h1 fuel s [] h
    rw [Wrap_ok kind limit h1 fuel s hgood] at h
    injection h with h
    exact hnonempty hne (List.map_eq_nil_iff.1 h)
  · intro hne hr hf
    have hgood := Wrap_good_of_fits kind limit h1 fuel s hr hf
    refine ⟨_, Wrap_ok kind limit h1 fuel s hgood, ?_⟩
    intro h
    exact hnonempty hne (List.map_eq_nil_iff.1 h)

/-- C5 at a text of white space only, which gives no line, and at the test
"Exact limit", which gives a non-empty result. -/
theorem wrap_empty_result_witness :
    Wrap eastAsianKind 0 " \t\n ".toList 4 = .ok [] ∧
    (∃ lines, Wrap eastAsianKind 6 "Golang".toList 6 = .ok lines ∧ lines ≠ []) :=
  ⟨(wrap_empty_result eastAsianKind 0 " \t\n ".toList 4 (by decide)).1 (by decide),
    (wrap_empty_result eastAsianKind 6 "Golang".toList 6 (by decide)).2.2 (by decide) (by decide)
      (by decide)⟩

/-- C6: idempotence of re-wrapping. When no word of the text is wider than
limit >= 1, `Wrap` returns lines and, on these lines joined by single spaces,
returns the same lines again. -/
theorem wrap_idempotent (fuel : Nat) (s : GoString) (limit : Int) (h1 : 1 ≤ limit)
    (hw : ∀ w ∈ Fields s, getWordWidth kind w ≤ limit) :
    ∃ lines, Wrap kind fuel s limit = .ok lines ∧
      Wrap kind fuel ([' '].intercalate lines) limit = .ok lines := by
  have hgood := Wrap_good_of_words kind limit fuel s hw
  refine ⟨_, Wrap_ok kind limit h1 fuel s hgood, ?_⟩
  have hne := layout_group_ne_nil kind limit fuel (Fields s) []
  have hfields : Fields ([' '].intercalate ((layout kind limit fuel (Fields s) []).map render)) =
      Fields s := by
    change Fields (render ((layout kind limit fuel (Fields s) []).map render)) = Fields s
    rw [render_map_render _ hne, layout_flatten, List.nil_append,
      flatMap_pieces_of_le kind limit fuel _ hw]
    exact Fields_render _ (Fields_solid s)
  rw [Wrap_eq kind limit h1, hfields, ← Wrap_eq kind limit h1]
  exact Wrap_ok kind limit h1 fuel s hgood

/-- C6 at the test "Simple case". -/
theorem wrap_idempotent_witness :
    ∃ lines, Wrap eastAsianKind 0 sampleText 20 = .ok lines ∧
      Wrap eastAsianKind 0 ([' '].intercalate lines) 20 = .ok lines :=
  wrap_idempotent eastAsianKind 0 sampleText 20 (by decide) (by decide)

/-- C7: line shape. When every code point of the text has width at most
limit >= 1, `Wrap` returns lines each of which is not empty, has no space at
its start or at its end, has no two consecutive spaces, and has no white space
other than the ASCII space. -/
theorem wrap_line_shape (fuel : Nat) (s : GoString) (limit : Int) (h1 : 1 ≤ limit)
    (hr : ∀ r ∈ s, runeWidth kind r ≤ limit) (hf : s.length ≤ fuel) :
    ∃ lines, Wrap kind fuel s limit = .ok lines ∧
      ∀ line ∈ lines, line ≠ [] ∧ line.head? ≠ some ' ' ∧ line.getLast? ≠ some ' ' ∧
        ¬ [' ', ' '] <:+: line ∧ ∀ r ∈ line, isSpace r = true → r = ' ' := by
  have hgood := Wrap_good_of_fits kind limit h1 fuel s hr hf
  refine ⟨_, Wrap_ok kind limit h1 fuel s hgood, ?_⟩
  intro line hline
  obtain ⟨g, hg, rfl⟩ := List.mem_map.1 hline
  exact render_shape g (layout_group_ne_nil kind limit fuel (Fields s) [] g hg)
    (layout_solid kind limit (by omega) fuel (Fields s) (Fields_solid s) hgood g hg)

/-- C7 on a text with an oversized word, wide code points and mixed white
space. -/
theorem wrap_line_shape_witness :
    ∃ lines, Wrap eastAsianKind 16 "世界 abcdefg\t b  \n".toList 3 = .ok lines ∧
      ∀ line ∈ lines, line ≠ [] ∧ line.head? ≠ some ' ' ∧ line.getLast? ≠ some ' ' ∧
        ¬ [' ', ' '] <:+: line ∧ ∀ r ∈ line, isSpace r = true → r = ' ' :=
  wrap_line_shape eastAsianKind 16 "世界 abcdefg\t b  \n".toList 3 (by decide) (by decide)
    (by decide)

/-- C8: whitespace insensitivity. For limit >= 1, two texts with the same
words give the same outcome of `Wrap`: the lines depend on the list of words and
the limit only. -/
theorem wrap_whitespace_insensitive (fuel : Nat) (s₁ s₂ : GoString) (limit : Int)
    (h1 : 1 ≤ limit) (h : Fields s₁ = Fields s₂) :
    Wrap kind fuel s₁ limit = Wrap kind fuel s₂ limit := by
  rw [Wrap_eq kind limit h1, Wrap_eq kind limit h1, h]

/-- C8 at two texts that differ in their white space only. -/
theorem wrap_whitespace_insensitive_witness :
    Wrap eastAsianKind 0 "Go is fun".toList 5 = Wrap eastAsianKind 0 "  Go\tis \n fun ".toList 5 :=
  wrap_whitespace_insensitive eastAsianKind 0 "Go is fun".toList "  Go\tis \n fun ".toList 5
    (by decide) (by decide)

/-- C9: splitting a single word. For a text of one word whose code points each
have width at most limit >= 1, `Wrap` returns the greedy split of the word: the
lines concatenate to the word, each is non-empty and at most limit wide, and
each line but the last is too wide to take the first code point of the next
line. A word that fits gives the line [word]; a word of code points of width 1
gives lines of exactly limit code points, then a last line of 1 to limit code
points. -/
theorem wrap_single_word (fuel : Nat) (s word : GoString) (limit : Int) (h1 : 1 ≤ limit)
    (hs : Fields s = [word]) (hr : ∀ r ∈ word, runeWidth kind r ≤ limit)
    (hf : word.length ≤ fuel) :
    ∃ lines, Wrap kind fuel s limit = .ok lines ∧
      lines.flatten = word ∧
      (∀ line ∈ lines, line ≠ [] ∧ getWordWidth kind line ≤ limit) ∧
      List.Chain' (fun l₁ l₂ => ∀ r ∈ l₂.head?,
        limit < getWordWidth kind l₁ + runeWidth kind r) lines ∧
      (getWordWidth kind word ≤ limit → lines = [word]) ∧
      ((∀ r ∈ word, runeWidth kind r = 1) →
        (∀ line ∈ lines.dropLast, (line.length : Int) = limit) ∧
        ∀ line ∈ lines.getLast?, 1 ≤ line.length ∧ (line.length : Int) ≤ limit) := by
  have h0 : 0 ≤ limit := by omega
  have hword : word ∈ Fields s := by rw [hs]; simp
  have hsolid := Fields_solid s word hword
  have hg := splitPure_fits kind limit h0 fuel word hr hf
  have hgood : ∀ w ∈ Fields s, getWordWidth kind (splitPure kind limit fuel w).2 ≤ limit := by
    intro w hw
    rw [hs] at hw
    simp at hw
    subst hw
    exact hg
  have hok := Wrap_ok kind limit h1 fuel s hgood
  rw [hs, layout_single] at hok
  have hps := pieces_solid kind limit h0 fuel word hsolid hg
  have hwidth : ∀ line ∈ pieces kind limit fuel word, getWordWidth kind line ≤ limit := by
    intro line hline
    rcases List.mem_append.1 hline with h | h
    · exact splitPure_frag_width kind limit h0 fuel word line h
    · simp at h; subst h; exact hg
  have hmem : ∀ line ∈ pieces kind limit fuel word, ∀ r ∈ line, r ∈ word := by
    intro line hline r hr'
    rw [← pieces_flatten kind limit fuel word]
    exact List.mem_flatten_of_mem hline hr'
  have hchain := splitPure_chain kind limit h0 fuel word hsolid.1 hg
  refine ⟨_, hok, pieces_flatten kind limit fuel word,
    fun line hline => ⟨(hps line hline).1, hwidth line hline⟩, hchain,
    fun hle => pieces_of_le kind limit fuel word hle, ?_⟩
  intro hunit
  have hlen : ∀ line ∈ pieces kind limit fuel word,
      getWordWidth kind line = line.length :=
    fun line hline => getWordWidth_unit kind line (fun r hr' => hunit r (hmem line hline r hr'))
  constructor
  · intro line hline
    have hl := List.mem_of_mem_dropLast hline
    obtain ⟨next, hnext, hR⟩ := chain_dropLast _ _ hchain line hline
    obtain ⟨c, cs, rfl⟩ := List.exists_cons_of_ne_nil (hps next hnext).1
    have h2 := hR c rfl
    have hc : runeWidth kind c = 1 := hunit c (hmem _ hnext c (List.mem_cons_self _ _))
    have h3 := hwidth line hl
    have h4 := hlen line hl
    omega
  · intro line hline
    have hl := List.mem_of_mem_getLast? hline
    have h3 := hwidth line hl
    have h4 := hlen line hl
    have h5 : 0 < line.length := List.length_pos.2 (hps line hl).1
    omega

/-- C9 at the test "Single long word". -/
theorem wrap_single_word_witness :
    ∃ lines, Wrap eastAsianKind 34 "Supercalifragilisticexpialidocious".toList 10 = .ok lines ∧
      lines.flatten = "Supercalifragilisticexpialidocious".toList ∧
      (∀ line ∈ lines, line ≠ [] ∧ getWordWidth eastAsianKind line ≤ 10) ∧
      List.Chain' (fun l₁ l₂ => ∀ r ∈ l₂.head?,
        10 < getWordWidth eastAsianKind l₁ + runeWidth eastAsianKind r) lines ∧
      (getWordWidth eastAsianKind "Supercalifragilisticexpialidocious".toList ≤ 10 →
        lines = ["Supercalifragilisticexpialidocious".toList]) ∧
      ((∀ r ∈ "Supercalifragilisticexpialidocious".toList, runeWidth eastAsianKind r = 1) →
        (∀ line ∈ lines.dropLast, (line.length : Int) = 10) ∧
        ∀ line ∈ lines.getLast?, 1 ≤ line.length ∧ (line.length : Int) ≤ 10) :=
  wrap_single_word eastAsianKind 34 "Supercalifragilisticexpialidocious".toList
    "Supercalifragilisticexpialidocious".toList 10 (by decide) (by decide) (by decide)
    (by decide)

/-- C10: greedy first-fit packing. When every word of the text has width at
most limit >= 1, `Wrap` returns lines such that, for every two consecutive
lines, the display width of the earlier line plus the width of the first word
of the later line exceeds limit. -/
theorem wrap_greedy (fuel : Nat) (s : GoString) (limit : Int) (h1 : 1 ≤ limit)
    (hw : ∀ w ∈ Fields s, getWordWidth kind w ≤ limit) :
    ∃ lines, Wrap kind fuel s limit = .ok lines ∧
      List.Chain' (fun l₁ l₂ => limit <
        displayWidth kind l₁ + getWordWidth kind (l₂.takeWhile (fun r => r ≠ ' '))) lines := by
  have hgood := Wrap_good_of_words kind limit fuel s hw
  refine ⟨_, Wrap_ok kind limit h1 fuel s hgood, ?_⟩
  have hsolid := layout_solid kind limit (by omega) fuel (Fields s) (Fields_solid s) hgood
  have hne := layout_group_ne_nil kind limit fuel (Fields s) []
  rw [List.chain'_map]
  have hch := (layout_chain kind limit fuel (Fields s) [] hw).1
  rw [List.Chain'.iff_mem] at hch
  refine hch.imp ?_
  rintro g₁ g₂ ⟨hg₁, hg₂, hR⟩
  rw [displayWidth_render kind g₁ (fun p hp => (hsolid g₁ hg₁ p hp).ne_space)]
  obtain ⟨a, rest, rfl⟩ := List.exists_cons_of_ne_nil (hne g₂ hg₂)
  rw [takeWhile_render a rest (hsolid _ hg₂ a (List.mem_cons_self _ _)).ne_space]
  exact hR a (by simp)

/-- C10 at the test "Simple case". -/
theorem wrap_greedy_witness :
    ∃ lines, Wrap eastAsianKind 0 sampleText 20 = .ok lines ∧
      List.Chain' (fun l₁ l₂ => 20 <
        displayWidth eastAsianKind l₁ +
          getWordWidth eastAsianKind (l₂.takeWhile (fun r => r ≠ ' '))) lines :=
  wrap_greedy eastAsianKind 0 sampleText 20 (by decide) (by decide)

/-- C11: no forced progress. On the word "世" (one code point of width 2) with
limit 1 the word is wider than the limit and `getSplitPos` returns offset 0:
the cut prefix `word[:0]` is empty. The same holds for "世界". -/
theorem getSplitPos_no_progress :
    (1 < getWordWidth eastAsianKind "世".toList ∧
      getSplitPos eastAsianKind "世".toList 1 = 0 ∧
      sliceAt "世".toList (getSplitPos eastAsianKind "世".toList 1) = .ok ([], "世".toList)) ∧
    (1 < getWordWidth eastAsianKind "世界".toList ∧
      getSplitPos eastAsianKind "世界".toList 1 = 0) := by
  decide

/-- C12: splitter cut point. For limit > 0 and a word wider than limit,
`getSplitPos` returns the byte offset of the start of a code point `r` of the
word: the prefix before `r` has width at most limit, the prefix with `r` has
width above limit, and slicing the word at the offset gives that prefix and the
rest. -/
theorem getSplitPos_cut_point (word : GoString) (limit : Int) (h0 : 0 < limit)
    (h : limit < getWordWidth kind word) :
    ∃ pre r post, word = pre ++ r :: post ∧ getSplitPos kind word limit = byteLen pre ∧
      getWordWidth kind pre ≤ limit ∧ limit < getWordWidth kind (pre ++ [r]) ∧
      sliceAt word (getSplitPos kind word limit) = .ok (pre, r :: post) :=
  getSplitPos_cut kind limit (by omega) word h

/-- C12 at the test "Word exceeding limit": offset 10, the byte length of
"Supercalif". -/
theorem getSplitPos_cut_point_witness :
    getSplitPos eastAsianKind "Supercalifragilisticexpialidocious".toList 10 = 10 ∧
    ∃ pre r post, "Supercalifragilisticexpialidocious".toList = pre ++ r :: post ∧
      getSplitPos eastAsianKind "Supercalifragilisticexpialidocious".toList 10 = byteLen pre ∧
      getWordWidth eastAsianKind pre ≤ 10 ∧ 10 < getWordWidth eastAsianKind (pre ++ [r]) ∧
      sliceAt "Supercalifragilisticexpialidocious".toList
        (getSplitPos eastAsianKind "Supercalifragilisticexpialidocious".toList 10) =
          .ok (pre, r :: post) :=
  ⟨by decide,
    getSplitPos_cut_point eastAsianKind "Supercalifragilisticexpialidocious".toList 10
      (by decide) (by decide)⟩

/-- C13, counterexample: with a limit that is not positive `Wrap` can return a
list, and can run the packing loop. For the empty text and limit 0 it returns
the empty list; for a text of white space and limit -5 it returns the empty
list; for the text "Go" and limit -1 it is in the split loop for ever. -/
theorem wrap_nonpositive_limit_counterexample :
    (∀ fuel, Wrap eastAsianKind fuel [] 0 = .ok []) ∧
    (∀ fuel, Wrap eastAsianKind fuel " \t".toList (-5) = .ok []) ∧
    (∀ fuel, Wrap eastAsianKind fuel "Go".toList (-1) = .outOfFuel) :=
  ⟨fun _ => rfl,
    fun fuel => by
      rw [Wrap_neg_eq eastAsianKind (-5) (by decide) fuel]
      rfl,
    fun fuel => by
      rw [Wrap_neg_eq eastAsianKind (-1) (by decide) fuel]
      exact wrapLoop_neg eastAsianKind (-1) (by decide) fuel "Go".toList [] (by decide)⟩

/-- C13, amended: `Wrap` does not check the limit. For limit <= 0 it never
returns a non-empty list of lines: it returns the empty list for the empty
text; with limit 0 and a non-empty text it panics on the division
`len(s) / limit`, before the packing loop; with limit < 0 it returns the empty
list for a text without words and never leaves the split loop for a text with
a word. -/
theorem wrap_nonpositive_limit (fuel : Nat) (s : GoString) (limit : Int) (h : limit ≤ 0) :
    (s = [] → Wrap kind fuel s limit = .ok []) ∧
    (s ≠ [] → limit = 0 → Wrap kind fuel s limit = .panic) ∧
    (limit < 0 → Fields s = [] → Wrap kind fuel s limit = .ok []) ∧
    (limit < 0 → Fields s ≠ [] → Wrap kind fuel s limit = .outOfFuel) ∧
    ∀ lines, Wrap kind fuel s limit = .ok lines → lines = [] := by
  have p1 : s = [] → Wrap kind fuel s limit = .ok [] := by
    intro hs; subst hs; rfl
  have p2 : s ≠ [] → limit = 0 → Wrap kind fuel s limit = .panic := by
    intro hs h0
    unfold Wrap
    rw [if_neg hs, if_pos h0]
  have p3 : limit < 0 → Fields s = [] → Wrap kind fuel s limit = .ok [] := by
    intro hneg hf
    rw [Wrap_neg_eq kind limit hneg, hf]
    rfl
  have p4 : limit < 0 → Fields s ≠ [] → Wrap kind fuel s limit = .outOfFuel := by
    intro hneg hf
    obtain ⟨w, ws, hws⟩ := List.exists_cons_of_ne_nil hf
    have hw : w ≠ [] := Fields_ne_nil s w (by rw [hws]; simp)
    rw [Wrap_neg_eq kind limit hneg, hws]
    exact wrapLoop_neg kind limit hneg fuel w ws hw
  refine ⟨p1, p2, p3, p4, ?_⟩
  intro lines hl
  by_cases hs : s = []
  · rw [p1 hs] at hl
    injection hl with hl
    exact hl.symm
  · rcases (by omega : limit < 0 ∨ limit = 0) with hneg | h0
    · by_cases hf : Fields s = []
      · rw [p3 hneg hf] at hl
        injection hl with hl
        exact hl.symm
      · rw [p4 hneg hf] at hl
        cases hl
    · rw [p2 hs h0] at hl
      cases hl

/-- C13, amended, at limit 0 and -1 on the text "Go is fun" and on the empty
text. -/
theorem wrap_nonpositive_limit_witness :
    Wrap eastAsianKind 9 "Go is fun".toList 0 = .panic ∧
    Wrap eastAsianKind 9 "Go is fun".toList (-1) = .outOfFuel ∧
    Wrap eastAsianKind 9 [] (-1) = .ok [] :=
  ⟨(wrap_nonpositive_limit eastAsianKind 9 "Go is fun".toList 0 (by decide)).2.1 (by decide) rfl,
    (wrap_nonpositive_limit eastAsianKind 9 "Go is fun".toList (-1) (by decide)).2.2.2.1
      (by decide) (by decide),
    (wrap_nonpositive_limit eastAsianKind 9 [] (-1) (by decide)).1 rfl⟩

/-- C14: the actual width bound. When every code point of the text has width
at most limit >= 1, `Wrap` returns lines of display width at most limit + 1,
and a line wider than limit holds at least two words. -/
theorem wrap_actual_width_bound (fuel : Nat) (s : GoString) (limit : Int) (h1 : 1 ≤ limit)
    (hr : ∀ r ∈ s, runeWidth kind r ≤ limit) (hf : s.length ≤ fuel) :
    ∃ lines, Wrap kind fuel s limit = .ok lines ∧
      ∀ line ∈ lines, displayWidth kind line ≤ limit + 1 ∧
        (limit < displayWidth kind line → 2 ≤ (line.splitOn ' ').length) := by
  have hgood := Wrap_good_of_fits kind limit h1 fuel s hr hf
  refine ⟨_, Wrap_ok kind limit h1 fuel s hgood, ?_⟩
  intro line hline
  obtain ⟨g, hg, rfl⟩ := List.mem_map.1 hline
  have hsolid := layout_solid kind limit (by omega) fuel (Fields s) (Fields_solid s) hgood g hg
  have hne := layout_group_ne_nil kind limit fuel (Fields s) [] g hg
  have hw := layout_width kind limit (by omega) fuel (Fields s) [] hgood
    ⟨by simp; omega, fun _ => by simp; omega⟩ g hg
  rw [displayWidth_render kind g (fun p hp => (hsolid p hp).ne_space),
    splitOn_render g hne (fun p hp => (hsolid p hp).ne_space)]
  refine ⟨hw.1, fun hlt => ?_⟩
  by_contra hlen
  have := hw.2 (by omega)
  omega

/-- C14 at the test "Simple case", limit 20. -/
theorem wrap_actual_width_bound_witness :
    ∃ lines, Wrap eastAsianKind 68 sampleText 20 = .ok lines ∧
      ∀ line ∈ lines, displayWidth eastAsianKind line ≤ 20 + 1 ∧
        (20 < displayWidth eastAsianKind line → 2 ≤ (line.splitOn ' ').length) :=
  wrap_actual_width_bound eastAsianKind 68 sampleText 20 (by decide) (by decide) (by decide)

/-- C15: no run-time failure for limit >= 1. The divisor of `len(s) / limit` is
not zero, the count passed to `Grow` is not negative, `Wrap` neither panics nor
cuts inside a code point, and for a word wider than limit (the condition of
the split loop) the offset `getSplitPos` returns is less than the byte length
of the word and on a code point boundary, so that both slices exist. -/
theorem wrap_no_panic (fuel : Nat) (s : GoString) (limit : Int) (h1 : 1 ≤ limit) :
    limit ≠ 0 ∧ 0 ≤ Int.tdiv (byteLen s) limit * (limit + 1) ∧
    Wrap kind fuel s limit ≠ .panic ∧ Wrap kind fuel s limit ≠ .splitsRune ∧
    ∀ word, limit < getWordWidth kind word →
      getSplitPos kind word limit < byteLen word ∧
      ∃ pre post, word = pre ++ post ∧ getSplitPos kind word limit = byteLen pre ∧
        sliceAt word (getSplitPos kind word limit) = .ok (pre, post) := by
  have hout : Wrap kind fuel s limit ≠ .panic ∧ Wrap kind fuel s limit ≠ .splitsRune := by
    by_cases hgood : ∀ w ∈ Fields s,
        getWordWidth kind (splitPure kind limit fuel w).2 ≤ limit
    · rw [Wrap_ok kind limit h1 fuel s hgood]
      exact ⟨fun h => (by cases h), fun h => (by cases h)⟩
    · push_neg at hgood
      obtain ⟨w, hw, hw'⟩ := hgood
      rw [Wrap_outOfFuel kind limit h1 fuel s ⟨w, hw, by omega⟩]
      exact ⟨fun h => (by cases h), fun h => (by cases h)⟩
  refine ⟨by omega, ?_, hout.1, hout.2, ?_⟩
  · exact Int.mul_nonneg (Int.tdiv_nonneg (Int.ofNat_nonneg _) (by omega)) (by omega)
  · intro word hword
    obtain ⟨pre, r, post, hw, hpos, _, _, hslice⟩ :=
      getSplitPos_cut kind limit (by omega) word hword
    refine ⟨?_, pre, r :: post, hw, hpos, hslice⟩
    have := runeLen_pos r
    rw [hpos]
    conv_rhs => rw [hw]
    simp only [byteLen_append, byteLen_cons]
    omega

/-- C15 on a text with an oversized word of wide code points, limit 3. -/
theorem wrap_no_panic_witness :
    (3 : Int) ≠ 0 ∧ 0 ≤ Int.tdiv (byteLen "世界世界 ab".toList) 3 * (3 + 1) ∧
    Wrap eastAsianKind 7 "世界世界 ab".toList 3 ≠ .panic ∧
    Wrap eastAsianKind 7 "世界世界 ab".toList 3 ≠ .splitsRune ∧
    ∀ word, 3 < getWordWidth eastAsianKind word →
      getSplitPos eastAsianKind word 3 < byteLen word ∧
      ∃ pre post, word = pre ++ post ∧ getSplitPos eastAsianKind word 3 = byteLen pre ∧
        sliceAt word (getSplitPos eastAsianKind word 3) = .ok (pre, post) :=
  wrap_no_panic eastAsianKind 7 "世界世界 ab".toList 3 (by decide)

/-- C16: the splitter on a word that fits. When the width of the word is at
most limit, `getSplitPos` returns the number of code points of the word
(`utf8.RuneCountInString(word)`). -/
theorem getSplitPos_of_fits (word : GoString) (limit : Int)
    (h : getWordWidth kind word ≤ limit) : getSplitPos kind word limit = word.length := by
  unfold getSplitPos
  rw [getSplitPosLoop_none kind limit word 0 0 (by omega)]

/-- C16 at the tests "Word within limit" and "Exact limit". -/
theorem getSplitPos_of_fits_witness :
    getSplitPos eastAsianKind "Short".toList 10 = "Short".toList.length ∧
    getSplitPos eastAsianKind "Golang".toList 6 = "Golang".toList.length :=
  ⟨getSplitPos_of_fits eastAsianKind "Short".toList 10 (by decide),
    getSplitPos_of_fits eastAsianKind "Golang".toList 6 (by decide)⟩

/-- C17: the offset of a word that fits is a count of code points, not of
bytes. The word "世界" has width 4, at most limit 10; `getSplitPos` returns 2,
its byte length is 6, and the offset 2 falls inside its first code point, so
`word[:2]` is not the whole word. -/
theorem getSplitPos_fits_not_byte_length :
    getWordWidth eastAsianKind "世界".toList ≤ 10 ∧
    getSplitPos eastAsianKind "世界".toList 10 = 2 ∧
    byteLen "世界".toList = 6 ∧
    sliceAt "世界".toList (getSplitPos eastAsianKind "世界".toList 10) = .splitsRune ∧
    sliceAt "世界".toList (byteLen "世界".toList) = .ok ("世界".toList, []) := by
  decide

end Claims

end TextWrapper
